import Mathlib

/-!
Verification of the array-reduction library in `src/eofunctions/math.py`.

Shallow embedding conventions:
* Array values are rationals with a distinguished `Missing` sentinel (numpy's
  `np.nan`); we model a value as `Option ℚ` with `Option.none` standing for
  `np.nan`.  Ordinary numpy arithmetic propagates the sentinel, which we model
  with `liftOp` below.  (No claim exercises IEEE-754 rounding, infinities, or
  division by zero; rational division by zero is modelled as Lean's total `0`
  and is never reached by a settled claim.)
* Arrays are modelled along the reduction axis: an n-dimensional numpy array
  reduced or scanned along `dimension` acts lane-wise, so a lane is a
  `List EOVal`; `dimension` arguments of the source are consumed by this view.
* Exceptions raised by the python code are modelled with `Except EOError`.
* Functions of the source keep their names (`Cummin.exec_np`, `EOSum.exec_np`,
  `binary_iterator`, ...).  Helpers imported from modules of this repository
  that are not part of the given source (`eofunctions.checks.is_empty`,
  `eofunctions.arrays.eo_count`, the error classes, and the `@process`
  dispatch) are modelled from the spec and marked as such.
-/

/-- EOVal models one cell of a numeric array: a rational number or the
Missing sentinel (numpy's `np.nan`), written `Option.none`. -/
abbrev EOVal := Option ℚ

/-- liftOp lifts a binary rational operation to `EOVal` with numpy's NaN
propagation: the result is Missing whenever either operand is Missing. -/
def liftOp (f : ℚ → ℚ → ℚ) : EOVal → EOVal → EOVal :=
  fun a b =>
    match a, b with
    | some x, some y => some (f x y)
    | _, _ => Option.none

/-- addV models elementwise `+` on floats (NaN propagating). -/
def addV : EOVal → EOVal → EOVal := liftOp (· + ·)

/-- subV models `np.subtract` (NaN propagating). -/
def subV : EOVal → EOVal → EOVal := liftOp (· - ·)

/-- mulV models elementwise `*` on floats (NaN propagating). -/
def mulV : EOVal → EOVal → EOVal := liftOp (· * ·)

/-- divV models `np.divide` (NaN propagating; division by zero is modelled by
rational division, i.e. `x / 0 = 0`; no settled claim evaluates it). -/
def divV : EOVal → EOVal → EOVal := liftOp (· / ·)

/-- minV models `np.minimum` (NaN propagating). -/
def minV : EOVal → EOVal → EOVal := liftOp min

/-- maxV models `np.maximum` (NaN propagating). -/
def maxV : EOVal → EOVal → EOVal := liftOp max

/-- Modelled from the spec: `is_empty` from `eofunctions.checks` is not part
of the given source.  Per the spec ("Empty input along the axis yields
Missing") and the source docstrings ("An empty array resolves always with
np.nan"), it tests whether the array has no elements. -/
def is_empty (data : List EOVal) : Bool := data.isEmpty

/-- Modelled from the spec: `eo_count` from `eofunctions.arrays` is not part
of the given source.  With `expression=True` it is the native element count
along the reduction axis (spec 4.3: "let n = native element count along the
axis + extra operand count"). -/
def eo_count (data : List EOVal) : Nat := data.length

/-- valids lists the non-Missing entries of a lane, in order. -/
def valids (data : List EOVal) : List ℚ := data.filterMap id

/-- nanMax models `np.nanmax` on a lane: the largest non-Missing entry, and
Missing when every entry is Missing. -/
def nanMax (data : List EOVal) : EOVal :=
  match valids data with
  | [] => Option.none
  | x :: xs => some (xs.foldl max x)

/-- nanMin models `np.nanmin` on a lane. -/
def nanMin (data : List EOVal) : EOVal :=
  match valids data with
  | [] => Option.none
  | x :: xs => some (xs.foldl min x)

/-- strictMin models `np.min` on a nonempty lane: NaN propagates. -/
def strictMin (data : List EOVal) : EOVal :=
  match data with
  | [] => Option.none
  | x :: xs => xs.foldl minV x

/-- strictMax models `np.max` on a nonempty lane: NaN propagates. -/
def strictMax (data : List EOVal) : EOVal :=
  match data with
  | [] => Option.none
  | x :: xs => xs.foldl maxV x

/-- strictSum models `np.sum`: NaN propagates, the empty sum is `0`. -/
def strictSum (data : List EOVal) : EOVal := data.foldl addV (some 0)

/-- strictProd models `np.prod`: NaN propagates, the empty product is `1`. -/
def strictProd (data : List EOVal) : EOVal := data.foldl mulV (some 1)

/-- nanSum models `np.nansum`: Missing entries count as `0` (also when every
entry is Missing, where numpy returns `0.0`). -/
def nanSum (data : List EOVal) : EOVal := some (valids data).sum

/-- EOError gathers the exception classes of `eofunctions.errors`; the module
itself is not part of the given source, so (modelled from the spec) each
operation-specific error of spec section 7 is one distinct constructor. -/
inductive EOError where
  | summandMissing
  | subtrahendMissing
  | multiplicandMissing
  | divisorMissing
  | quantilesParameterMissing
  | quantilesParameterConflict
  | onlyExtraIdxsGiven
  deriving DecidableEq, Repr

----------------------------------------------------------------------------
-- Statistical reducers (Mean, Min, Max, Median, SD, Variance, Extrema)
----------------------------------------------------------------------------

/-- Mean.exec_np translates `Mean.exec_np` (math.py:2264): empty input gives
`np.nan`; otherwise `np.mean` (strict) or `np.nanmean`. -/
def Mean.exec_np (data : List EOVal) (ignore_nodata : Bool := true) : EOVal :=
  if is_empty data then Option.none
  else if !ignore_nodata then
    (strictSum data).map (fun s => s / data.length)
  else
    match valids data with
    | [] => Option.none
    | xs => some (xs.sum / xs.length)

/-- Min.exec_np translates `Min.exec_np` (math.py:2355). -/
def Min.exec_np (data : List EOVal) (ignore_nodata : Bool := true) : EOVal :=
  if is_empty data then Option.none
  else if !ignore_nodata then strictMin data
  else nanMin data

/-- Max.exec_np translates `Max.exec_np` (math.py:2442). -/
def Max.exec_np (data : List EOVal) (ignore_nodata : Bool := true) : EOVal :=
  if is_empty data then Option.none
  else if !ignore_nodata then strictMax data
  else nanMax data

/-- insertSorted inserts a rational into a sorted list (ascending). -/
def insertSorted (x : ℚ) : List ℚ → List ℚ
  | [] => [x]
  | y :: ys => if x ≤ y then x :: y :: ys else y :: insertSorted x ys

/-- sortQ sorts a list of rationals ascending (numpy's sort of the
non-Missing entries). -/
def sortQ (l : List ℚ) : List ℚ := l.foldr insertSorted []

/-- medianOfSorted is numpy's median of a nonempty sorted sample: the middle
element, or the mean of the two middle elements. -/
def medianOfSorted (v : List ℚ) : ℚ :=
  let m := v.length
  if m % 2 = 1 then v.getD (m / 2) 0
  else (v.getD (m / 2 - 1) 0 + v.getD (m / 2) 0) / 2

/-- Median.exec_np translates `Median.exec_np` (math.py:2533): empty input
gives `np.nan`; `np.median` returns NaN when any entry is NaN; `np.nanmedian`
drops the NaNs first. -/
def Median.exec_np (data : List EOVal) (ignore_nodata : Bool := true) : EOVal :=
  if is_empty data then Option.none
  else if !ignore_nodata then
    if Option.none ∈ data then Option.none
    else some (medianOfSorted (sortQ (valids data)))
  else
    match valids data with
    | [] => Option.none
    | xs => some (medianOfSorted (sortQ xs))

/-- varOfSample is the sample variance (1 degree of freedom) of a list of
rationals; numpy returns NaN (here Missing) when fewer than two values
remain, since the `0/0` of `ddof=1` is NaN. -/
def varOfSample (xs : List ℚ) : EOVal :=
  if xs.length < 2 then Option.none
  else
    let m : ℚ := xs.sum / xs.length
    some ((xs.map (fun x => (x - m) ^ 2)).sum / (xs.length - 1))

/-- Variance.exec_np translates `Variance.exec_np` (math.py:2740): empty
input gives `np.nan`; `np.var(..., ddof=1)` (strict) or `np.nanvar`. -/
def Variance.exec_np (data : List EOVal) (ignore_nodata : Bool := true) : EOVal :=
  if is_empty data then Option.none
  else if !ignore_nodata then
    if Option.none ∈ data then Option.none
    else varOfSample (valids data)
  else varOfSample (valids data)

/-- SD.exec_np translates `SD.exec_np` (math.py:2635): the square root of the
corresponding sample variance.  The square root leaves ℚ, so the result
lives in `Option ℝ`. -/
noncomputable def SD.exec_np (data : List EOVal) (ignore_nodata : Bool := true) : Option ℝ :=
  if is_empty data then Option.none
  else if !ignore_nodata then
    if Option.none ∈ data then Option.none
    else (varOfSample (valids data)).map (fun v => Real.sqrt (v : ℝ))
  else (varOfSample (valids data)).map (fun v => Real.sqrt (v : ℝ))

/-- Extrema.exec_np translates `Extrema.exec_np` (math.py:2834).  The calls
`min(data, ...)`/`max(data, ...)` go through the `@process` registry, which
is not part of the given source; modelled from the spec (section 9, the
registry maps an operation name to its array handler), they dispatch to
`Min.exec_np` and `Max.exec_np`. -/
def Extrema.exec_np (data : List EOVal) (ignore_nodata : Bool := true) : List EOVal :=
  if is_empty data then [Option.none, Option.none]
  else [Min.exec_np data ignore_nodata, Max.exec_np data ignore_nodata]

----------------------------------------------------------------------------
-- Quantiles
----------------------------------------------------------------------------

/-- Quantiles.check_input translates `Quantiles._check_input`
(math.py:3018-3045): conflict when both parameters are set, missing when
neither is. -/
def Quantiles.check_input (probabilities : Option (List ℚ)) (q : Option Nat) :
    Except EOError Unit :=
  if probabilities.isSome && q.isSome then Except.error EOError.quantilesParameterConflict
  else if probabilities.isNone && q.isNone then Except.error EOError.quantilesParameterMissing
  else Except.ok ()

/-- arangeQ models `np.arange(0, stop, step)` in exact arithmetic: the values
`k * step` for `0 ≤ k < ⌈stop / step⌉`. -/
def arangeQ (stop step : ℚ) : List ℚ :=
  (List.range (Int.toNat ⌈stop / step⌉)).map (fun k : Nat => (k : ℚ) * step)

/-- resolvedQ translates line 2950, `list(np.arange(0, 100, 100. / q))[1:]`:
the percentile cut points derived from a partition count `q`. -/
def resolvedQ (q : Nat) : List ℚ := (arangeQ 100 ((100 : ℚ) / q)).drop 1

/-- percentileOfSorted is numpy's linearly interpolated percentile of a
nonempty sorted sample (`p` on the 0..100 scale). -/
def percentileOfSorted (v : List ℚ) (p : ℚ) : ℚ :=
  let h : ℚ := ((v.length : ℚ) - 1) * p / 100
  let vl := v.getD (Int.toNat ⌊h⌋) 0
  let vh := v.getD (Int.toNat ⌈h⌉) 0
  vl + (h - (⌊h⌋ : ℚ)) * (vh - vl)

/-- strictPercentile models `np.percentile` on one lane: NaN if any entry is
NaN, else the interpolated percentile of the sorted sample. -/
def strictPercentile (data : List EOVal) (p : ℚ) : EOVal :=
  if Option.none ∈ data then Option.none
  else
    match valids data with
    | [] => Option.none
    | xs => some (percentileOfSorted (sortQ xs) p)

/-- nanPercentile models `np.nanpercentile` on one lane: Missing entries are
dropped first; all-Missing gives NaN. -/
def nanPercentile (data : List EOVal) (p : ℚ) : EOVal :=
  match valids data with
  | [] => Option.none
  | xs => some (percentileOfSorted (sortQ xs) p)

/-- Quantiles.exec_np translates `Quantiles.exec_np` (math.py:2902-2958):
validate the probability spec, resolve it to percentile cut points, shortcut
the empty array to a list of Missing of the resolved length, else compute
the percentiles (strict or nan-aware by `ignore_nodata`). -/
def Quantiles.exec_np (data : List EOVal) (probabilities : Option (List ℚ) := Option.none)
    (q : Option Nat := Option.none) (ignore_nodata : Bool := true) :
    Except EOError (List EOVal) :=
  match Quantiles.check_input probabilities q with
  | Except.error e => Except.error e
  | Except.ok _ =>
    let probs : List ℚ :=
      match probabilities with
      | some ps => ps.map (fun p => p * 100)
      | Option.none =>
        match q with
        | some qq => resolvedQ qq
        | Option.none => []
    if is_empty data then Except.ok (List.replicate probs.length Option.none)
    else if !ignore_nodata then Except.ok (probs.map (fun p => strictPercentile data p))
    else Except.ok (probs.map (fun p => nanPercentile data p))

----------------------------------------------------------------------------
-- Cumulative operators (Cummin, Cummax, Cumsum, Cumproduct)
----------------------------------------------------------------------------

/-- CumOut is the result of a cumulative scan: the scalar `np.nan` for an
empty input array, else an array of the input's shape. -/
inductive CumOut where
  | scalar (v : EOVal)
  | arr (xs : List EOVal)
  deriving DecidableEq, Repr

/-- outArr extracts the array payload of a scan result ([] for a scalar). -/
def outArr : CumOut → List EOVal
  | CumOut.scalar _ => []
  | CumOut.arr xs => xs

/-- scanAcc op a l is numpy's inclusive accumulate continued from seed a. -/
def scanAcc {α : Type} (op : α → α → α) (a : α) : List α → List α
  | [] => [a]
  | y :: ys => a :: scanAcc op (op a y) ys

/-- scan1 models `np.ufunc.accumulate` / `np.cumsum` / `np.cumprod` along the
lane: out[0] = x0 and out[i] = op(out[i-1], x[i]). -/
def scan1 {α : Type} (op : α → α → α) : List α → List α
  | [] => []
  | x :: xs => scanAcc op x xs

/-- fillHole c models the in-place assignment `data[nan_idxs] = c`: Missing
entries become c, others are kept. -/
def fillHole (c : EOVal) (v : EOVal) : EOVal :=
  match v with
  | Option.none => c
  | some x => some x

/-- restoreMissing models the assignment `out[nan_idxs] = np.nan` that puts
the Missing sentinel back at the input's Missing positions. -/
def restoreMissing (data out : List EOVal) : List EOVal :=
  List.zipWith (fun orig c => match orig with | Option.none => Option.none | some _ => c)
    data out

/-- Cummin.exec_np translates `Cummin.exec_np` (math.py:3078-3112): empty
input gives scalar `np.nan`; with `ignore_nodata=False` a raw
`np.minimum.accumulate`; with `ignore_nodata=True` (skip mode) Missing
entries are overwritten with `np.nanmax(data)` before the accumulate and the
output is restored to Missing at those positions. -/
def Cummin.exec_np (data : List EOVal) (ignore_nodata : Bool := true) : CumOut :=
  if is_empty data then CumOut.scalar Option.none
  else if !ignore_nodata then CumOut.arr (scan1 minV data)
  else CumOut.arr (restoreMissing data (scan1 minV (data.map (fillHole (nanMax data)))))

/-- Cummin.dataAfter gives the contents of the caller's `data` array after
`Cummin.exec_np` returns: line 3109 (`data[nan_idxs] = np.nanmax(data)`)
writes into the caller's array in place. -/
def Cummin.dataAfter (data : List EOVal) (ignore_nodata : Bool := true) : List EOVal :=
  if is_empty data then data
  else if !ignore_nodata then data
  else data.map (fillHole (nanMax data))

/-- Cummax.exec_np translates `Cummax.exec_np` (math.py:3187-3221); the skip
mode fills Missing entries with `np.nanmin(data)`. -/
def Cummax.exec_np (data : List EOVal) (ignore_nodata : Bool := true) : CumOut :=
  if is_empty data then CumOut.scalar Option.none
  else if !ignore_nodata then CumOut.arr (scan1 maxV data)
  else CumOut.arr (restoreMissing data (scan1 maxV (data.map (fillHole (nanMin data)))))

/-- Cumsum.exec_np translates `Cumsum.exec_np` (math.py:3394-3426):
`np.cumsum` raw, or `np.nancumsum` (Missing counts as 0) with the Missing
positions restored afterwards. -/
def Cumsum.exec_np (data : List EOVal) (ignore_nodata : Bool := true) : CumOut :=
  if is_empty data then CumOut.scalar Option.none
  else if !ignore_nodata then CumOut.arr (scan1 addV data)
  else CumOut.arr (restoreMissing data (scan1 addV (data.map (fillHole (some 0)))))

/-- Cumproduct.exec_np translates `Cumproduct.exec_np` (math.py:3296-3328):
`np.cumprod` raw, or `np.nancumprod` (Missing counts as 1) with the Missing
positions restored afterwards. -/
def Cumproduct.exec_np (data : List EOVal) (ignore_nodata : Bool := true) : CumOut :=
  if is_empty data then CumOut.scalar Option.none
  else if !ignore_nodata then CumOut.arr (scan1 mulV data)
  else CumOut.arr (restoreMissing data (scan1 mulV (data.map (fillHole (some 1)))))

/-- upToVals lists the non-Missing entries of the inclusive prefix of the
lane up to position i. -/
def upToVals (data : List EOVal) (i : Nat) : List ℚ := valids (data.take (i + 1))

/-- minList is the minimum of a list of rationals (Missing when empty). -/
def minList (l : List ℚ) : Option ℚ :=
  match l with
  | [] => Option.none
  | x :: xs => some (xs.foldl min x)

/-- maxList is the maximum of a list of rationals (Missing when empty). -/
def maxList (l : List ℚ) : Option ℚ :=
  match l with
  | [] => Option.none
  | x :: xs => some (xs.foldl max x)

/-- sumList is the sum of a list of rationals. -/
def sumList (l : List ℚ) : Option ℚ := some l.sum

/-- prodList is the product of a list of rationals. -/
def prodList (l : List ℚ) : Option ℚ := some l.prod

/-- SkipOK states the skip-mode (ignore_nodata=true) contract of a
cumulative scan for one lane: the result is an array of the input's shape,
every Missing position of the input is Missing in the output, and every
non-Missing position i holds F of the non-Missing entries of the inclusive
prefix 0..i — so a Missing entry never affects later positions. -/
def SkipOK (exec1 : List EOVal → CumOut) (F : List ℚ → Option ℚ) (data : List EOVal) : Prop :=
  exec1 data = CumOut.arr (outArr (exec1 data)) ∧
  (outArr (exec1 data)).length = data.length ∧
  ∀ i, i < data.length →
    (data.getD i (some 0) = Option.none → (outArr (exec1 data)).getD i (some 0) = Option.none) ∧
    (data.getD i (some 0) ≠ Option.none →
      (outArr (exec1 data)).getD i (some 0) = F (upToVals data i))

/-- ContamOK states the contamination-mode (ignore_nodata=false) contract:
the result is an array of the input's shape, every position at or after the
first Missing entry is Missing, and every position whose inclusive prefix
has no Missing entry holds F of that prefix. -/
def ContamOK (exec1 : List EOVal → CumOut) (F : List ℚ → Option ℚ) (data : List EOVal) : Prop :=
  exec1 data = CumOut.arr (outArr (exec1 data)) ∧
  (outArr (exec1 data)).length = data.length ∧
  ∀ i, i < data.length →
    (Option.none ∈ data.take (i + 1) → (outArr (exec1 data)).getD i (some 0) = Option.none) ∧
    (Option.none ∉ data.take (i + 1) →
      (outArr (exec1 data)).getD i (some 0) = F (upToVals data i))

----------------------------------------------------------------------------
-- Variadic arithmetic folds (EOSum, EOSubtract, EOMultiply, EODivide)
----------------------------------------------------------------------------

/-- replace_nodata_arr_or_value translates `replace_nodata_arr_or_value`
(math.py:3782-3789) on a scalar operand: a NaN becomes the nodata stand-in. -/
def replace_nodata_arr_or_value (v : EOVal) (nodata : ℚ) : EOVal :=
  match v with
  | Option.none => some nodata
  | some x => some x

/-- sanOpt applies the optional sanitization of `binary_iterator`: operands
are replaced only when a nodata stand-in is configured (ignore mode). -/
def sanOpt (nodata : Option ℚ) (v : EOVal) : EOVal :=
  match nodata with
  | Option.none => v
  | some nd => replace_nodata_arr_or_value v nd

/-- index_arr_and_values translates `index_arr_and_values`
(math.py:3768-3779): operand number idx of the merged fold sequence is the
extra value assigned to that absolute position, or else the next native
element of the lane (the runtime-built index expression of
`build_multi_dim_index`, which lives outside the given source, is modelled
from the spec as the "slice at position i along the axis" primitive, i.e.
list indexing on the lane).  The out-of-range accesses a python IndexError
would raise are not reachable from the settled claims; they are modelled by
the Missing default. -/
def index_arr_and_values (idx : Nat) (arr : List EOVal) (arr_idx : Nat)
    (extra_values : Option (List EOVal)) (extra_idxs : Option (List Nat)) : EOVal × Nat :=
  match extra_idxs, extra_values with
  | some idxs, some vals =>
    if idx ∈ idxs then (vals.getD (idxs.indexOf idx) Option.none, arr_idx)
    else (arr.getD arr_idx Option.none, arr_idx + 1)
  | _, _ => (arr.getD arr_idx Option.none, arr_idx + 1)

/-- binIterStep is one iteration of the loop of `binary_iterator`
(math.py:3757-3763): fetch operand i, sanitize it when nodata is set, and
combine it into the accumulator. -/
def binIterStep (arr : List EOVal) (binary_fun : EOVal → EOVal → EOVal)
    (extra_values : Option (List EOVal)) (extra_idxs : Option (List Nat)) (nodata : Option ℚ)
    (st : EOVal × Nat) (i : Nat) : EOVal × Nat :=
  (binary_fun st.1 (sanOpt nodata (index_arr_and_values i arr st.2 extra_values extra_idxs).1),
    (index_arr_and_values i arr st.2 extra_values extra_idxs).2)

/-- binIterRun is the seeded loop of `binary_iterator`: operand 0 (sanitized
when nodata is set) seeds the accumulator, then operands 1..n-1 are combined
left to right. -/
def binIterRun (arr : List EOVal) (binary_fun : EOVal → EOVal → EOVal)
    (extra_values : Option (List EOVal)) (extra_idxs : Option (List Nat)) (nodata : Option ℚ)
    (n : Nat) : EOVal :=
  ((List.range' 1 (n - 1)).foldl (binIterStep arr binary_fun extra_values extra_idxs nodata)
    (sanOpt nodata (index_arr_and_values 0 arr 0 extra_values extra_idxs).1,
      (index_arr_and_values 0 arr 0 extra_values extra_idxs).2)).1

/-- binary_iterator translates `binary_iterator` (math.py:3740-3765): when
extra values come without explicit positions they are appended after the
native elements (`list(range(n_arr, n_arr + len(extra_values)))`); positions
without values raise; the merged sequence of n_arr + n_extra operands is
folded left to right. -/
def binary_iterator (arr : List EOVal) (binary_fun : EOVal → EOVal → EOVal)
    (extra_values : Option (List EOVal) := Option.none)
    (extra_idxs : Option (List Nat) := Option.none)
    (nodata : Option ℚ := Option.none) : Except EOError EOVal :=
  match extra_idxs, extra_values with
  | Option.none, some vals =>
    Except.ok (binIterRun arr binary_fun (some vals) (some (List.range' arr.length vals.length))
      nodata (arr.length + vals.length))
  | some idxs, some vals =>
    Except.ok (binIterRun arr binary_fun (some vals) (some idxs) nodata (arr.length + idxs.length))
  | Option.none, Option.none =>
    Except.ok (binIterRun arr binary_fun Option.none Option.none nodata arr.length)
  | some _, Option.none => Except.error EOError.onlyExtraIdxsGiven

/-- EOSum.exec_np translates `EOSum.exec_np` (math.py:3478-3517): fewer than
two combined operands raise SummandMissing; else the axis sum of the lane
plus the sum of the extras, strict (`np.sum`) or nan-aware (`np.nansum`). -/
def EOSum.exec_np (data : List EOVal) (ignore_nodata : Bool := true)
    (extra_values : Option (List EOVal) := Option.none) : Except EOError EOVal :=
  let extras := extra_values.getD []
  let n := eo_count data + extras.length
  if n < 2 then Except.error EOError.summandMissing
  else if !ignore_nodata then Except.ok (addV (strictSum data) (strictSum extras))
  else Except.ok (addV (nanSum data) (nanSum extras))

/-- EOSubtract.exec_np translates `EOSubtract.exec_np` (math.py:3546-3586):
fewer than two combined operands raise SubtrahendMissing; else the merged
sequence is folded with `np.subtract`, sanitizing with nodata 0 in ignore
mode. -/
def EOSubtract.exec_np (data : List EOVal) (ignore_nodata : Bool := true)
    (extra_values : Option (List EOVal) := Option.none)
    (extra_idxs : Option (List Nat) := Option.none) : Except EOError EOVal :=
  let n_extra := match extra_values with | some v => v.length | Option.none => 0
  let n := eo_count data + n_extra
  if n < 2 then Except.error EOError.subtrahendMissing
  else binary_iterator data subV extra_values extra_idxs
    (if ignore_nodata then some 0 else Option.none)

/-- EOMultiply.exec_np translates `EOMultiply.exec_np` (math.py:3615-3658):
fewer than two combined operands raise MultiplicandMissing; in ignore mode
the Missing entries of the lane are overwritten with 1 in place; the extras
are combined with a strict `np.prod` and fed as the `initial` value of the
axis product. -/
def EOMultiply.exec_np (data : List EOVal) (ignore_nodata : Bool := true)
    (extra_values : Option (List EOVal) := Option.none) : Except EOError EOVal :=
  let extras := extra_values.getD []
  let n := eo_count data + extras.length
  if n < 2 then Except.error EOError.multiplicandMissing
  else
    let dataN := if ignore_nodata then data.map (fillHole (some 1)) else data
    let extras_tot : EOVal := if 0 < extras.length then extras.foldl mulV (some 1) else some 1
    Except.ok (dataN.foldl mulV extras_tot)

/-- EOMultiply.dataAfter gives the contents of the caller's `data` array
after `EOMultiply.exec_np` returns: line 3649 (`data[np.isnan(data)] = 1.`)
writes into the caller's array in place (only reached when the operand-count
check passed). -/
def EOMultiply.dataAfter (data : List EOVal) (ignore_nodata : Bool := true)
    (extra_values : Option (List EOVal) := Option.none) : List EOVal :=
  let extras := extra_values.getD []
  let n := eo_count data + extras.length
  if n < 2 then data
  else if ignore_nodata then data.map (fillHole (some 1))
  else data

/-- EODivide.exec_np translates `EODivide.exec_np` (math.py:3689-3729):
fewer than two combined operands raise DivisorMissing; else the merged
sequence is folded with `np.divide`, sanitizing with nodata 1 in ignore
mode. -/
def EODivide.exec_np (data : List EOVal) (ignore_nodata : Bool := true)
    (extra_values : Option (List EOVal) := Option.none)
    (extra_idxs : Option (List Nat) := Option.none) : Except EOError EOVal :=
  let n_extra := match extra_values with | some v => v.length | Option.none => 0
  let n := eo_count data + n_extra
  if n < 2 then Except.error EOError.divisorMissing
  else binary_iterator data divV extra_values extra_idxs
    (if ignore_nodata then some 1 else Option.none)

----------------------------------------------------------------------------
-- Claim C7
----------------------------------------------------------------------------

/-- C7: quantiles requires exactly one of the probability list and the
partition count: it fails with the conflict error when both are given and
with the missing error when neither is, before any computation — for every
input array (including the empty one) and every no-data mode. -/
theorem quantiles_parameter_validation (data : List EOVal) (ps : List ℚ) (qv : Nat)
    (ig : Bool) :
    Quantiles.exec_np data (some ps) (some qv) ig
        = Except.error EOError.quantilesParameterConflict ∧
    Quantiles.exec_np data Option.none Option.none ig
        = Except.error EOError.quantilesParameterMissing := by
  constructor <;> rfl

----------------------------------------------------------------------------
-- Claim C8
----------------------------------------------------------------------------

/-- C8: a partition count q ≥ 1 resolves to exactly q−1 evenly spaced
percentile cut points (the arithmetic progression k·(100/q), k = 1..q−1),
each strictly between 0 and 100 — i.e. probabilities strictly between 0 and
1, the point 0 excluded; and on an empty input array quantiles returns a
list of Missing whose length is the resolved probability count (q−1 for a
partition count, the list length for an explicit probability list). -/
theorem quantiles_q_resolution (q : Nat) (hq : 1 ≤ q) :
    (resolvedQ q).length = q - 1 ∧
    resolvedQ q = (List.range (q - 1)).map (fun k : Nat => ((k : ℚ) + 1) * (100 / q)) ∧
    (∀ p ∈ resolvedQ q, 0 < p ∧ p < 100) ∧
    (∀ ig, Quantiles.exec_np [] Option.none (some q) ig
        = Except.ok (List.replicate (q - 1) Option.none)) ∧
    (∀ (ps : List ℚ) (ig : Bool), Quantiles.exec_np [] (some ps) Option.none ig
        = Except.ok (List.replicate ps.length Option.none)) := by
  have hq0 : (q : ℚ) ≠ 0 := Nat.cast_ne_zero.mpr (by omega)
  have hstep : (100 : ℚ) / ((100 : ℚ) / q) = q := by
    field_simp
  have hres : resolvedQ q = (List.range (q - 1)).map (fun k : Nat => ((k : ℚ) + 1) * (100 / q)) := by
    unfold resolvedQ arangeQ
    rw [hstep]
    rw [Int.ceil_natCast, Int.toNat_natCast]
    obtain ⟨m, rfl⟩ : ∃ m, q = m + 1 := ⟨q - 1, by omega⟩
    rw [List.range_succ_eq_map, List.map_cons, List.map_map, List.drop_succ_cons,
      List.drop_zero, Nat.add_sub_cancel]
    refine List.map_congr_left ?_
    intro k _
    simp only [Function.comp_apply]
    push_cast
    ring
  have hlen : (resolvedQ q).length = q - 1 := by
    rw [hres, List.length_map, List.length_range]
  refine ⟨hlen, hres, ?_, ?_, ?_⟩
  · intro p hp
    rw [hres] at hp
    obtain ⟨k, hk, rfl⟩ := List.mem_map.mp hp
    rw [List.mem_range] at hk
    have hq100 : (0 : ℚ) < 100 / q := by positivity
    constructor
    · positivity
    · have hk1 : ((k : ℚ) + 1) < q := by
        have : (k : ℚ) < (q : ℚ) - 1 := by
          have : ((k : ℚ)) < ((q - 1 : Nat) : ℚ) := by exact_mod_cast hk
          rw [Nat.cast_sub (by omega)] at this
          simpa using this
        linarith
      calc ((k : ℚ) + 1) * (100 / q) < (q : ℚ) * (100 / q) := by
            apply mul_lt_mul_of_pos_right hk1 hq100
        _ = 100 := by field_simp
  · intro ig
    show Except.ok (List.replicate (resolvedQ q).length Option.none) = _
    rw [hlen]
  · intro ps ig
    show Except.ok (List.replicate (ps.map (fun p => p * 100)).length Option.none) = _
    rw [List.length_map]

/-- Witness for C8 at the concrete partition count q = 4. -/
theorem quantiles_q_resolution_witness :
    (resolvedQ 4).length = 3 ∧
    (∀ ig, Quantiles.exec_np [] Option.none (some 4) ig
        = Except.ok (List.replicate 3 Option.none)) := by
  have h := quantiles_q_resolution 4 (by decide)
  exact ⟨h.1, h.2.2.2.1⟩

----------------------------------------------------------------------------
-- Claim C9
----------------------------------------------------------------------------

/-- C9: every statistical reducer (mean, min, max, median, sd, variance)
returns Missing on empty input and extrema returns a pair of Missing on
empty input; on non-empty input extrema is the two-element list of the
minimum and the maximum, e.g. extrema([3,1,2]) = [1,3]. -/
theorem statistical_reducers_empty_and_extrema (ig : Bool) (data : List EOVal) :
    Mean.exec_np [] ig = Option.none ∧
    Min.exec_np [] ig = Option.none ∧
    Max.exec_np [] ig = Option.none ∧
    Median.exec_np [] ig = Option.none ∧
    SD.exec_np [] ig = Option.none ∧
    Variance.exec_np [] ig = Option.none ∧
    Extrema.exec_np [] ig = [Option.none, Option.none] ∧
    (data ≠ [] → Extrema.exec_np data ig = [Min.exec_np data ig, Max.exec_np data ig]) ∧
    Extrema.exec_np [some 3, some 1, some 2] true = [some 1, some 3] := by
  refine ⟨rfl, rfl, rfl, rfl, rfl, rfl, rfl, ?_, by decide⟩
  intro h
  match data, h with
  | x :: xs, _ => rfl

/-- Witness for C9 at the concrete non-empty array [3,1,2]. -/
theorem statistical_reducers_empty_and_extrema_witness :
    Extrema.exec_np [some 3, some 1, some 2] true
      = [Min.exec_np [some 3, some 1, some 2] true, Max.exec_np [some 3, some 1, some 2] true] :=
  (statistical_reducers_empty_and_extrema true [some 3, some 1, some 2]).2.2.2.2.2.2.2.1
    (by decide)

----------------------------------------------------------------------------
-- Helper lemmas: valids, liftOp folds, scans
----------------------------------------------------------------------------

theorem valids_cons_none (xs : List EOVal) : valids (Option.none :: xs) = valids xs := rfl

theorem valids_cons_some (y : ℚ) (xs : List EOVal) :
    valids (some y :: xs) = y :: valids xs := rfl

theorem liftOp_none_left (f : ℚ → ℚ → ℚ) (b : EOVal) : liftOp f Option.none b = Option.none := by
  cases b <;> rfl

theorem liftOp_none_right (f : ℚ → ℚ → ℚ) (a : EOVal) : liftOp f a Option.none = Option.none := by
  cases a <;> rfl

theorem foldl_liftOp_none (f : ℚ → ℚ → ℚ) (l : List EOVal) :
    l.foldl (liftOp f) Option.none = Option.none := by
  induction l with
  | nil => rfl
  | cons y ys ih => rw [List.foldl_cons, liftOp_none_left]; exact ih

theorem foldl_liftOp_of_mem_none (f : ℚ → ℚ → ℚ) (l : List EOVal) (a : EOVal)
    (h : Option.none ∈ l) : l.foldl (liftOp f) a = Option.none := by
  induction l generalizing a with
  | nil => cases h
  | cons y ys ih =>
    rw [List.foldl_cons]
    rcases List.mem_cons.mp h with h1 | h2
    · rw [← h1, liftOp_none_right]
      exact foldl_liftOp_none f ys
    · exact ih _ h2

theorem foldl_liftOp_map_some (f : ℚ → ℚ → ℚ) (vs : List ℚ) (a : ℚ) :
    (vs.map some).foldl (liftOp f) (some a) = some (vs.foldl f a) := by
  induction vs generalizing a with
  | nil => rfl
  | cons v vs ih =>
    rw [List.map_cons, List.foldl_cons, List.foldl_cons]
    exact ih (f a v)

theorem eq_map_some_of_none_not_mem :
    ∀ (l : List EOVal), Option.none ∉ l → l = (valids l).map some := by
  intro l
  induction l with
  | nil => intro _; rfl
  | cons x xs ih =>
    intro h
    match x with
    | Option.none => exact absurd (List.mem_cons_self _ _) h
    | some y =>
      rw [valids_cons_some, List.map_cons]
      have hxs : Option.none ∉ xs := fun hm => h (List.mem_cons_of_mem _ hm)
      rw [← ih hxs]

theorem scanAcc_length {α : Type} (op : α → α → α) (a : α) (l : List α) :
    (scanAcc op a l).length = l.length + 1 := by
  induction l generalizing a with
  | nil => rfl
  | cons y ys ih => simp [scanAcc, ih]

theorem scan1_length {α : Type} (op : α → α → α) (l : List α) :
    (scan1 op l).length = l.length := by
  cases l with
  | nil => rfl
  | cons x xs => simp [scan1, scanAcc_length]

theorem scanAcc_getD {α : Type} (op : α → α → α) (d : α) :
    ∀ (l : List α) (a : α) (i : Nat), i ≤ l.length →
      (scanAcc op a l).getD i d = (l.take i).foldl op a := by
  intro l
  induction l with
  | nil =>
    intro a i h
    have h0 : i = 0 := by simpa using h
    subst h0
    rfl
  | cons y ys ih =>
    intro a i h
    cases i with
    | zero => rfl
    | succ j =>
      rw [List.take_succ_cons, List.foldl_cons]
      exact ih (op a y) j (by simpa using h)

theorem scan1_getD {α : Type} (op : α → α → α) (d : α) (x : α) (xs : List α) (i : Nat)
    (h : i ≤ xs.length) : (scan1 op (x :: xs)).getD i d = (xs.take i).foldl op x :=
  scanAcc_getD op d xs x i h

theorem getD_mem : ∀ (l : List EOVal) (i : Nat), i < l.length → l.getD i (some 0) ∈ l := by
  intro l
  induction l with
  | nil => intro i h; simp at h
  | cons x xs ih =>
    intro i h
    cases i with
    | zero => rw [List.getD_cons_zero]; exact List.mem_cons_self _ _
    | succ j =>
      rw [List.getD_cons_succ]
      exact List.mem_cons_of_mem _ (ih j (by simpa using h))

theorem getD_mem_take : ∀ (l : List EOVal) (i : Nat), i < l.length →
    l.getD i (some 0) ∈ l.take (i + 1) := by
  intro l
  induction l with
  | nil => intro i h; simp at h
  | cons x xs ih =>
    intro i h
    cases i with
    | zero => rw [List.getD_cons_zero, List.take_succ_cons]; exact List.mem_cons_self _ _
    | succ j =>
      rw [List.getD_cons_succ, List.take_succ_cons]
      exact List.mem_cons_of_mem _ (ih j (by simpa using h))

theorem mem_valids_take (l : List EOVal) (n : Nat) (y : ℚ) (h : y ∈ valids (l.take n)) :
    y ∈ valids l := by
  rcases List.mem_filterMap.mp h with ⟨v, hv, hid⟩
  exact List.mem_filterMap.mpr ⟨v, List.take_subset n l hv, hid⟩

theorem fillHole_some (c : ℚ) (v : EOVal) : fillHole (some c) v = some (v.getD c) := by
  cases v <;> rfl

theorem map_fillHole_some (c : ℚ) (l : List EOVal) :
    l.map (fillHole (some c)) = (l.map (fun v => v.getD c)).map some := by
  rw [List.map_map]
  exact List.map_congr_left (fun v _ => fillHole_some c v)

theorem foldl_add_init (vs : List ℚ) : ∀ a : ℚ, vs.foldl (· + ·) a = a + vs.sum := by
  induction vs with
  | nil => intro a; simp
  | cons v vs ih =>
    intro a
    rw [List.foldl_cons, ih (a + v), List.sum_cons]
    ring

theorem foldl_mul_init (vs : List ℚ) : ∀ a : ℚ, vs.foldl (· * ·) a = a * vs.prod := by
  induction vs with
  | nil => intro a; simp
  | cons v vs ih =>
    intro a
    rw [List.foldl_cons, ih (a * v), List.prod_cons]
    ring

theorem foldl_add_getD0 : ∀ (l : List EOVal) (a : ℚ),
    (l.map (fun v => v.getD 0)).foldl (· + ·) a = a + (valids l).sum := by
  intro l
  induction l with
  | nil => intro a; simp [valids]
  | cons v rest ih =>
    intro a
    match v with
    | Option.none =>
      rw [List.map_cons, List.foldl_cons, valids_cons_none]
      simpa using ih a
    | some y =>
      rw [List.map_cons, List.foldl_cons, valids_cons_some, List.sum_cons]
      simp only [Option.getD_some]
      rw [ih (a + y)]
      ring

theorem foldl_mul_getD1 : ∀ (l : List EOVal) (a : ℚ),
    (l.map (fun v => v.getD 1)).foldl (· * ·) a = a * (valids l).prod := by
  intro l
  induction l with
  | nil => intro a; simp [valids]
  | cons v rest ih =>
    intro a
    match v with
    | Option.none =>
      rw [List.map_cons, List.foldl_cons, valids_cons_none]
      simpa using ih a
    | some y =>
      rw [List.map_cons, List.foldl_cons, valids_cons_some, List.prod_cons]
      simp only [Option.getD_some]
      rw [ih (a * y)]
      ring

theorem le_foldl_max : ∀ (l : List ℚ) (a : ℚ), a ≤ l.foldl max a := by
  intro l
  induction l with
  | nil => intro a; simp
  | cons y ys ih =>
    intro a
    rw [List.foldl_cons]
    exact le_trans (le_max_left a y) (ih (max a y))

theorem mem_le_foldl_max : ∀ (l : List ℚ) (a y : ℚ), y ∈ l → y ≤ l.foldl max a := by
  intro l
  induction l with
  | nil => intro a y h; cases h
  | cons z zs ih =>
    intro a y h
    rw [List.foldl_cons]
    rcases List.mem_cons.mp h with h1 | h2
    · subst h1
      exact le_trans (le_max_right a y) (le_foldl_max zs (max a y))
    · exact ih (max a z) y h2

theorem foldl_min_le : ∀ (l : List ℚ) (a : ℚ), l.foldl min a ≤ a := by
  intro l
  induction l with
  | nil => intro a; simp
  | cons y ys ih =>
    intro a
    rw [List.foldl_cons]
    exact le_trans (ih (min a y)) (min_le_left a y)

theorem foldl_min_le_mem : ∀ (l : List ℚ) (a y : ℚ), y ∈ l → l.foldl min a ≤ y := by
  intro l
  induction l with
  | nil => intro a y h; cases h
  | cons z zs ih =>
    intro a y h
    rw [List.foldl_cons]
    rcases List.mem_cons.mp h with h1 | h2
    · subst h1
      exact le_trans (foldl_min_le zs (min a y)) (min_le_right a y)
    · exact ih (min a z) y h2

theorem nanMax_le (data : List EOVal) (M : ℚ) (h : nanMax data = some M) :
    ∀ y ∈ valids data, y ≤ M := by
  intro y hy
  unfold nanMax at h
  cases hv : valids data with
  | nil => rw [hv] at h; cases h
  | cons x xs =>
    rw [hv] at h
    injection h with h'
    subst h'
    rw [hv] at hy
    rcases List.mem_cons.mp hy with h1 | h2
    · subst h1
      exact le_foldl_max xs y
    · exact mem_le_foldl_max xs x y h2

theorem nanMin_le (data : List EOVal) (M : ℚ) (h : nanMin data = some M) :
    ∀ y ∈ valids data, M ≤ y := by
  intro y hy
  unfold nanMin at h
  cases hv : valids data with
  | nil => rw [hv] at h; cases h
  | cons x xs =>
    rw [hv] at h
    injection h with h'
    subst h'
    rw [hv] at hy
    rcases List.mem_cons.mp hy with h1 | h2
    · subst h1
      exact foldl_min_le xs y
    · exact foldl_min_le_mem xs x y h2

theorem foldl_min_fill (M : ℚ) : ∀ (t : List EOVal) (a : ℚ),
    (∀ y ∈ valids t, y ≤ M) → a ≤ M →
    (t.map (fun v => v.getD M)).foldl min a = (valids t).foldl min a := by
  intro t
  induction t with
  | nil => intro a _ _; rfl
  | cons v rest ih =>
    intro a hb ha
    match v with
    | Option.none =>
      rw [List.map_cons, List.foldl_cons, valids_cons_none]
      simp only [Option.getD_none]
      rw [min_eq_left ha]
      exact ih a (fun y hy => hb y hy) ha
    | some y =>
      rw [List.map_cons, List.foldl_cons, valids_cons_some, List.foldl_cons]
      simp only [Option.getD_some]
      refine ih (min a y) (fun z hz => hb z (List.mem_cons_of_mem _ hz)) ?_
      exact le_trans (min_le_left a y) ha

theorem foldl_max_fill (M : ℚ) : ∀ (t : List EOVal) (a : ℚ),
    (∀ y ∈ valids t, M ≤ y) → M ≤ a →
    (t.map (fun v => v.getD M)).foldl max a = (valids t).foldl max a := by
  intro t
  induction t with
  | nil => intro a _ _; rfl
  | cons v rest ih =>
    intro a hb ha
    match v with
    | Option.none =>
      rw [List.map_cons, List.foldl_cons, valids_cons_none]
      simp only [Option.getD_none]
      rw [max_eq_left ha]
      exact ih a (fun y hy => hb y hy) ha
    | some y =>
      rw [List.map_cons, List.foldl_cons, valids_cons_some, List.foldl_cons]
      simp only [Option.getD_some]
      refine ih (max a y) (fun z hz => hb z (List.mem_cons_of_mem _ hz)) ?_
      exact le_trans ha (le_max_left a y)

theorem restoreMissing_length (data c : List EOVal) :
    (restoreMissing data c).length = min data.length c.length := by
  simp [restoreMissing]

theorem restoreMissing_getD_none :
    ∀ (data c : List EOVal) (i : Nat), i < data.length → i < c.length →
      data.getD i (some 0) = Option.none →
      (restoreMissing data c).getD i (some 0) = Option.none := by
  intro data
  induction data with
  | nil => intro c i h; simp at h
  | cons v rest ih =>
    intro c i h1 h2 h3
    cases c with
    | nil => simp at h2
    | cons w cs =>
      cases i with
      | zero =>
        rw [List.getD_cons_zero] at h3
        subst h3
        rfl
      | succ j =>
        rw [List.getD_cons_succ] at h3
        show (restoreMissing rest cs).getD j (some 0) = Option.none
        exact ih cs j (by simpa using h1) (by simpa using h2) h3

theorem restoreMissing_getD_some :
    ∀ (data c : List EOVal) (i : Nat) (x : ℚ), i < data.length → i < c.length →
      data.getD i (some 0) = some x →
      (restoreMissing data c).getD i (some 0) = c.getD i (some 0) := by
  intro data
  induction data with
  | nil => intro c i x h; simp at h
  | cons v rest ih =>
    intro c i x h1 h2 h3
    cases c with
    | nil => simp at h2
    | cons w cs =>
      cases i with
      | zero =>
        rw [List.getD_cons_zero] at h3
        subst h3
        rfl
      | succ j =>
        rw [List.getD_cons_succ] at h3
        show (restoreMissing rest cs).getD j (some 0) = cs.getD j (some 0)
        exact ih cs j x (by simpa using h1) (by simpa using h2) h3

theorem fillHole_none (v : EOVal) : fillHole Option.none v = v := by
  cases v <;> rfl

theorem map_fillHole_none (l : List EOVal) : l.map (fillHole Option.none) = l := by
  rw [List.map_congr_left (fun v _ => fillHole_none v)]
  exact List.map_id' l

theorem valids_nil_all_none (l : List EOVal) (h : valids l = []) :
    ∀ v ∈ l, v = Option.none := by
  intro v hv
  match v with
  | Option.none => rfl
  | some y =>
    have hy : y ∈ valids l := List.mem_filterMap.mpr ⟨some y, hv, rfl⟩
    rw [h] at hy
    cases hy

theorem scan_fill_getD (f : ℚ → ℚ → ℚ) (c : ℚ) (d0 : EOVal) (rest : List EOVal) (i : Nat)
    (h : i ≤ rest.length) :
    (scan1 (liftOp f) ((d0 :: rest).map (fillHole (some c)))).getD i (some 0)
      = some (((rest.take i).map (fun v => v.getD c)).foldl f (d0.getD c)) := by
  rw [map_fillHole_some, List.map_cons, List.map_cons]
  rw [scan1_getD (liftOp f) (some 0) (some (d0.getD c))
    ((rest.map (fun v => v.getD c)).map some) i (by simpa using h)]
  rw [← List.map_take, ← List.map_take, foldl_liftOp_map_some]

theorem sum_bridge (d0 : EOVal) (t' : List EOVal) :
    some ((t'.map (fun v => v.getD 0)).foldl (· + ·) (d0.getD 0))
      = sumList (valids (d0 :: t')) := by
  rw [foldl_add_getD0]
  match d0 with
  | Option.none => rw [valids_cons_none]; simp [sumList]
  | some y => rw [valids_cons_some]; simp [sumList]

theorem prod_bridge (d0 : EOVal) (t' : List EOVal) :
    some ((t'.map (fun v => v.getD 1)).foldl (· * ·) (d0.getD 1))
      = prodList (valids (d0 :: t')) := by
  rw [foldl_mul_getD1]
  match d0 with
  | Option.none => rw [valids_cons_none]; simp [prodList]
  | some y => rw [valids_cons_some]; simp [prodList]

theorem min_bridge (M : ℚ) (d0 : EOVal) (t' : List EOVal)
    (hb : ∀ y ∈ valids (d0 :: t'), y ≤ M)
    (hne : valids (d0 :: t') ≠ []) :
    some ((t'.map (fun v => v.getD M)).foldl min (d0.getD M))
      = minList (valids (d0 :: t')) := by
  match d0 with
  | some y =>
    simp only [Option.getD_some]
    rw [foldl_min_fill M t' y
      (fun z hz => hb z (by rw [valids_cons_some]; exact List.mem_cons_of_mem _ hz))
      (hb y (by rw [valids_cons_some]; exact List.mem_cons_self _ _))]
    rw [valids_cons_some]
    rfl
  | Option.none =>
    simp only [Option.getD_none]
    rw [foldl_min_fill M t' M (fun z hz => hb z (by rw [valids_cons_none]; exact hz)) le_rfl]
    rw [valids_cons_none] at hne ⊢
    cases hv : valids t' with
    | nil => exact absurd hv hne
    | cons z zs =>
      rw [List.foldl_cons,
        min_eq_right (hb z (by rw [valids_cons_none, hv]; exact List.mem_cons_self _ _))]
      rfl

theorem max_bridge (m : ℚ) (d0 : EOVal) (t' : List EOVal)
    (hb : ∀ y ∈ valids (d0 :: t'), m ≤ y)
    (hne : valids (d0 :: t') ≠ []) :
    some ((t'.map (fun v => v.getD m)).foldl max (d0.getD m))
      = maxList (valids (d0 :: t')) := by
  match d0 with
  | some y =>
    simp only [Option.getD_some]
    rw [foldl_max_fill m t' y
      (fun z hz => hb z (by rw [valids_cons_some]; exact List.mem_cons_of_mem _ hz))
      (hb y (by rw [valids_cons_some]; exact List.mem_cons_self _ _))]
    rw [valids_cons_some]
    rfl
  | Option.none =>
    simp only [Option.getD_none]
    rw [foldl_max_fill m t' m (fun z hz => hb z (by rw [valids_cons_none]; exact hz)) le_rfl]
    rw [valids_cons_none] at hne ⊢
    cases hv : valids t' with
    | nil => exact absurd hv hne
    | cons z zs =>
      rw [List.foldl_cons,
        max_eq_right (hb z (by rw [valids_cons_none, hv]; exact List.mem_cons_self _ _))]
      rfl

theorem skipOK_cumsum (data : List EOVal) (h : data ≠ []) :
    SkipOK (fun d => Cumsum.exec_np d true) sumList data := by
  match data, h with
  | d0 :: rest, _ =>
    have hLlen : (scan1 addV ((d0 :: rest).map (fillHole (some 0)))).length
        = (d0 :: rest).length := by
      rw [scan1_length, List.length_map]
    refine ⟨rfl, ?_, ?_⟩
    · show (restoreMissing (d0 :: rest)
          (scan1 addV ((d0 :: rest).map (fillHole (some 0))))).length = (d0 :: rest).length
      rw [restoreMissing_length, hLlen, Nat.min_self]
    · intro i hi
      have hi' : i ≤ rest.length := by
        have := Nat.lt_succ_iff.mp (by simpa using hi)
        exact this
      have hiL : i < (scan1 addV ((d0 :: rest).map (fillHole (some 0)))).length := by
        rw [hLlen]; exact hi
      constructor
      · intro hmiss
        exact restoreMissing_getD_none (d0 :: rest) _ i hi hiL hmiss
      · intro hval
        obtain ⟨x, hx⟩ : ∃ x, (d0 :: rest).getD i (some 0) = some x := by
          cases hg : (d0 :: rest).getD i (some 0) with
          | none => exact absurd hg hval
          | some x => exact ⟨x, rfl⟩
        show (restoreMissing (d0 :: rest)
            (scan1 addV ((d0 :: rest).map (fillHole (some 0))))).getD i (some 0)
          = sumList (upToVals (d0 :: rest) i)
        rw [restoreMissing_getD_some (d0 :: rest) _ i x hi hiL hx]
        unfold addV
        rw [scan_fill_getD (· + ·) 0 d0 rest i hi']
        unfold upToVals
        rw [List.take_succ_cons]
        exact sum_bridge d0 (rest.take i)

theorem skipOK_cumproduct (data : List EOVal) (h : data ≠ []) :
    SkipOK (fun d => Cumproduct.exec_np d true) prodList data := by
  match data, h with
  | d0 :: rest, _ =>
    have hLlen : (scan1 mulV ((d0 :: rest).map (fillHole (some 1)))).length
        = (d0 :: rest).length := by
      rw [scan1_length, List.length_map]
    refine ⟨rfl, ?_, ?_⟩
    · show (restoreMissing (d0 :: rest)
          (scan1 mulV ((d0 :: rest).map (fillHole (some 1))))).length = (d0 :: rest).length
      rw [restoreMissing_length, hLlen, Nat.min_self]
    · intro i hi
      have hi' : i ≤ rest.length := by
        have := Nat.lt_succ_iff.mp (by simpa using hi)
        exact this
      have hiL : i < (scan1 mulV ((d0 :: rest).map (fillHole (some 1)))).length := by
        rw [hLlen]; exact hi
      constructor
      · intro hmiss
        exact restoreMissing_getD_none (d0 :: rest) _ i hi hiL hmiss
      · intro hval
        obtain ⟨x, hx⟩ : ∃ x, (d0 :: rest).getD i (some 0) = some x := by
          cases hg : (d0 :: rest).getD i (some 0) with
          | none => exact absurd hg hval
          | some x => exact ⟨x, rfl⟩
        show (restoreMissing (d0 :: rest)
            (scan1 mulV ((d0 :: rest).map (fillHole (some 1))))).getD i (some 0)
          = prodList (upToVals (d0 :: rest) i)
        rw [restoreMissing_getD_some (d0 :: rest) _ i x hi hiL hx]
        unfold mulV
        rw [scan_fill_getD (· * ·) 1 d0 rest i hi']
        unfold upToVals
        rw [List.take_succ_cons]
        exact prod_bridge d0 (rest.take i)

theorem skipOK_cummin (data : List EOVal) (h : data ≠ []) :
    SkipOK (fun d => Cummin.exec_np d true) minList data := by
  match data, h with
  | d0 :: rest, _ =>
    have hLlen : (scan1 minV ((d0 :: rest).map (fillHole (nanMax (d0 :: rest))))).length
        = (d0 :: rest).length := by
      rw [scan1_length, List.length_map]
    refine ⟨rfl, ?_, ?_⟩
    · show (restoreMissing (d0 :: rest)
          (scan1 minV ((d0 :: rest).map (fillHole (nanMax (d0 :: rest)))))).length
        = (d0 :: rest).length
      rw [restoreMissing_length, hLlen, Nat.min_self]
    · intro i hi
      have hi' : i ≤ rest.length := Nat.lt_succ_iff.mp (by simpa using hi)
      have hiL : i < (scan1 minV ((d0 :: rest).map (fillHole (nanMax (d0 :: rest))))).length := by
        rw [hLlen]; exact hi
      constructor
      · intro hmiss
        exact restoreMissing_getD_none (d0 :: rest) _ i hi hiL hmiss
      · intro hval
        obtain ⟨x, hx⟩ : ∃ x, (d0 :: rest).getD i (some 0) = some x := by
          cases hg : (d0 :: rest).getD i (some 0) with
          | none => exact absurd hg hval
          | some x => exact ⟨x, rfl⟩
        show (restoreMissing (d0 :: rest)
            (scan1 minV ((d0 :: rest).map (fillHole (nanMax (d0 :: rest)))))).getD i (some 0)
          = minList (upToVals (d0 :: rest) i)
        rw [restoreMissing_getD_some (d0 :: rest) _ i x hi hiL hx]
        cases hnm : nanMax (d0 :: rest) with
        | none =>
          have hvnil : valids (d0 :: rest) = [] := by
            unfold nanMax at hnm
            cases hv : valids (d0 :: rest) with
            | nil => rfl
            | cons a as => rw [hv] at hnm; cases hnm
          have hall : (d0 :: rest).getD i (some 0) = Option.none :=
            valids_nil_all_none _ hvnil _ (getD_mem _ i hi)
          rw [hx] at hall
          cases hall
        | some M =>
          unfold minV
          rw [scan_fill_getD min M d0 rest i hi']
          unfold upToVals
          rw [List.take_succ_cons]
          have hxmem : x ∈ valids (d0 :: rest.take i) := by
            have hm := getD_mem_take (d0 :: rest) i hi
            rw [hx, List.take_succ_cons] at hm
            exact List.mem_filterMap.mpr ⟨some x, hm, rfl⟩
          refine min_bridge M d0 (rest.take i) ?_ ?_
          · intro y hy
            refine nanMax_le (d0 :: rest) M hnm y ?_
            refine mem_valids_take (d0 :: rest) (i + 1) y ?_
            rw [List.take_succ_cons]
            exact hy
          · intro hnil
            rw [hnil] at hxmem
            cases hxmem

theorem skipOK_cummax (data : List EOVal) (h : data ≠ []) :
    SkipOK (fun d => Cummax.exec_np d true) maxList data := by
  match data, h with
  | d0 :: rest, _ =>
    have hLlen : (scan1 maxV ((d0 :: rest).map (fillHole (nanMin (d0 :: rest))))).length
        = (d0 :: rest).length := by
      rw [scan1_length, List.length_map]
    refine ⟨rfl, ?_, ?_⟩
    · show (restoreMissing (d0 :: rest)
          (scan1 maxV ((d0 :: rest).map (fillHole (nanMin (d0 :: rest)))))).length
        = (d0 :: rest).length
      rw [restoreMissing_length, hLlen, Nat.min_self]
    · intro i hi
      have hi' : i ≤ rest.length := Nat.lt_succ_iff.mp (by simpa using hi)
      have hiL : i < (scan1 maxV ((d0 :: rest).map (fillHole (nanMin (d0 :: rest))))).length := by
        rw [hLlen]; exact hi
      constructor
      · intro hmiss
        exact restoreMissing_getD_none (d0 :: rest) _ i hi hiL hmiss
      · intro hval
        obtain ⟨x, hx⟩ : ∃ x, (d0 :: rest).getD i (some 0) = some x := by
          cases hg : (d0 :: rest).getD i (some 0) with
          | none => exact absurd hg hval
          | some x => exact ⟨x, rfl⟩
        show (restoreMissing (d0 :: rest)
            (scan1 maxV ((d0 :: rest).map (fillHole (nanMin (d0 :: rest)))))).getD i (some 0)
          = maxList (upToVals (d0 :: rest) i)
        rw [restoreMissing_getD_some (d0 :: rest) _ i x hi hiL hx]
        cases hnm : nanMin (d0 :: rest) with
        | none =>
          have hvnil : valids (d0 :: rest) = [] := by
            unfold nanMin at hnm
            cases hv : valids (d0 :: rest) with
            | nil => rfl
            | cons a as => rw [hv] at hnm; cases hnm
          have hall : (d0 :: rest).getD i (some 0) = Option.none :=
            valids_nil_all_none _ hvnil _ (getD_mem _ i hi)
          rw [hx] at hall
          cases hall
        | some m =>
          unfold maxV
          rw [scan_fill_getD max m d0 rest i hi']
          unfold upToVals
          rw [List.take_succ_cons]
          have hxmem : x ∈ valids (d0 :: rest.take i) := by
            have hm := getD_mem_take (d0 :: rest) i hi
            rw [hx, List.take_succ_cons] at hm
            exact List.mem_filterMap.mpr ⟨some x, hm, rfl⟩
          refine max_bridge m d0 (rest.take i) ?_ ?_
          · intro y hy
            refine nanMin_le (d0 :: rest) m hnm y ?_
            refine mem_valids_take (d0 :: rest) (i + 1) y ?_
            rw [List.take_succ_cons]
            exact hy
          · intro hnil
            rw [hnil] at hxmem
            cases hxmem

theorem contam_core (f : ℚ → ℚ → ℚ) (F : List ℚ → Option ℚ)
    (hF : ∀ (x : ℚ) (vs : List ℚ), F (x :: vs) = some (vs.foldl f x))
    (d0 : EOVal) (rest : List EOVal) :
    (scan1 (liftOp f) (d0 :: rest)).length = (d0 :: rest).length ∧
    ∀ i, i < (d0 :: rest).length →
      (Option.none ∈ (d0 :: rest).take (i + 1) →
        (scan1 (liftOp f) (d0 :: rest)).getD i (some 0) = Option.none) ∧
      (Option.none ∉ (d0 :: rest).take (i + 1) →
        (scan1 (liftOp f) (d0 :: rest)).getD i (some 0) = F (upToVals (d0 :: rest) i)) := by
  refine ⟨scan1_length (liftOp f) (d0 :: rest), ?_⟩
  intro i hi
  have hi' : i ≤ rest.length := Nat.lt_succ_iff.mp (by simpa using hi)
  have hget := scan1_getD (liftOp f) (some 0) d0 rest i hi'
  constructor
  · intro hmem
    rw [List.take_succ_cons] at hmem
    rw [hget]
    rcases List.mem_cons.mp hmem with h1 | h2
    · rw [← h1]
      exact foldl_liftOp_none f (rest.take i)
    · exact foldl_liftOp_of_mem_none f (rest.take i) d0 h2
  · intro hmem
    rw [List.take_succ_cons] at hmem
    obtain ⟨x, rfl⟩ : ∃ x, d0 = some x := by
      cases d0 with
      | none => exact absurd (List.mem_cons_self _ _) hmem
      | some x => exact ⟨x, rfl⟩
    have ht' : Option.none ∉ rest.take i := fun hh => hmem (List.mem_cons_of_mem _ hh)
    rw [hget, eq_map_some_of_none_not_mem (rest.take i) ht', foldl_liftOp_map_some]
    unfold upToVals
    rw [List.take_succ_cons, valids_cons_some, hF]

theorem contamOK_cummin (data : List EOVal) (h : data ≠ []) :
    ContamOK (fun d => Cummin.exec_np d false) minList data := by
  match data, h with
  | d0 :: rest, _ =>
    have hcore := contam_core min minList (fun x vs => rfl) d0 rest
    exact ⟨rfl, hcore.1, hcore.2⟩

theorem contamOK_cummax (data : List EOVal) (h : data ≠ []) :
    ContamOK (fun d => Cummax.exec_np d false) maxList data := by
  match data, h with
  | d0 :: rest, _ =>
    have hcore := contam_core max maxList (fun x vs => rfl) d0 rest
    exact ⟨rfl, hcore.1, hcore.2⟩

theorem contamOK_cumsum (data : List EOVal) (h : data ≠ []) :
    ContamOK (fun d => Cumsum.exec_np d false) sumList data := by
  match data, h with
  | d0 :: rest, _ =>
    have hF : ∀ (x : ℚ) (vs : List ℚ), sumList (x :: vs) = some (vs.foldl (· + ·) x) := by
      intro x vs
      unfold sumList
      rw [foldl_add_init, List.sum_cons]
    have hcore := contam_core (· + ·) sumList hF d0 rest
    exact ⟨rfl, hcore.1, hcore.2⟩

theorem contamOK_cumproduct (data : List EOVal) (h : data ≠ []) :
    ContamOK (fun d => Cumproduct.exec_np d false) prodList data := by
  match data, h with
  | d0 :: rest, _ =>
    have hF : ∀ (x : ℚ) (vs : List ℚ), prodList (x :: vs) = some (vs.foldl (· * ·) x) := by
      intro x vs
      unfold prodList
      rw [foldl_mul_init, List.prod_cons]
    have hcore := contam_core (· * ·) prodList hF d0 rest
    exact ⟨rfl, hcore.1, hcore.2⟩

----------------------------------------------------------------------------
-- Claim C1
----------------------------------------------------------------------------

/-- C1 counterexample: the claim quantifies over every array, but on the
empty array the cumulative scans return the scalar Missing (`np.nan`), not
an output of the input's (empty) shape. -/
theorem cumulative_scan_empty_returns_scalar :
    Cumsum.exec_np [] true = CumOut.scalar Option.none ∧
    Cumsum.exec_np [] true ≠ CumOut.arr [] := by
  exact ⟨rfl, by simp [Cumsum.exec_np, is_empty]⟩

/-- C1 (amended to non-empty arrays): for every non-empty array, the four
cumulative scans in skip mode (ignore_nodata=true, the default) produce an
output of the input's shape where each non-Missing position holds the
operation over the non-Missing entries of its inclusive prefix (so a
Missing entry never changes any later position) and each Missing position
is Missing; in contamination mode (ignore_nodata=false) every position at
or after the first Missing entry is Missing while each earlier position
holds the operation over its full prefix.  (On the empty array the scans
return scalar Missing instead.) -/
theorem cumulative_scans_characterization (data : List EOVal) (h : data ≠ []) :
    SkipOK (fun d => Cummin.exec_np d true) minList data ∧
    SkipOK (fun d => Cummax.exec_np d true) maxList data ∧
    SkipOK (fun d => Cumsum.exec_np d true) sumList data ∧
    SkipOK (fun d => Cumproduct.exec_np d true) prodList data ∧
    ContamOK (fun d => Cummin.exec_np d false) minList data ∧
    ContamOK (fun d => Cummax.exec_np d false) maxList data ∧
    ContamOK (fun d => Cumsum.exec_np d false) sumList data ∧
    ContamOK (fun d => Cumproduct.exec_np d false) prodList data :=
  ⟨skipOK_cummin data h, skipOK_cummax data h, skipOK_cumsum data h,
    skipOK_cumproduct data h, contamOK_cummin data h, contamOK_cummax data h,
    contamOK_cumsum data h, contamOK_cumproduct data h⟩

/-- Witness for C1 at the concrete array [2, Missing, 4] of the spec's
cumulative_sum example. -/
theorem cumulative_scans_characterization_witness :
    SkipOK (fun d => Cumsum.exec_np d true) sumList [some 2, Option.none, some 4] ∧
    ContamOK (fun d => Cumsum.exec_np d false) sumList [some 2, Option.none, some 4] := by
  have h := cumulative_scans_characterization [some 2, Option.none, some 4] (by decide)
  exact ⟨h.2.2.1, h.2.2.2.2.2.2.1⟩

/-- Spec example: cumulative_sum([2, Missing, 4]) in skip mode is
[2, Missing, 6]. -/
theorem cumsum_skip_example :
    Cumsum.exec_np [some 2, Option.none, some 4] true
      = CumOut.arr [some 2, Option.none, some 6] := by
  norm_num [Cumsum.exec_np, is_empty, restoreMissing, scan1, scanAcc, fillHole, addV, liftOp,
    nanSum, valids]

/-- Spec example: cumulative_sum([2, Missing, 4]) in contamination mode is
[2, Missing, Missing]. -/
theorem cumsum_contaminate_example :
    Cumsum.exec_np [some 2, Option.none, some 4] false
      = CumOut.arr [some 2, Option.none, Option.none] := by
  norm_num [Cumsum.exec_np, is_empty, scan1, scanAcc, addV, liftOp]

----------------------------------------------------------------------------
-- Claim C3
----------------------------------------------------------------------------

/-- C3 (code bug): the skip-mode no-data substitution writes into the
caller's array in place.  After Cummin.exec_np([2, Missing, 4]) the caller's
array holds [2, 4, 4] (the Missing entry was overwritten with
np.nanmax(data) = 4), and after EOMultiply.exec_np([2, Missing]) in ignore
mode it holds [2, 1] — both differ from the original contents, contradicting
the spec's requirement that substitution operate on a private copy. -/
theorem nodata_substitution_mutates_caller_array :
    Cummin.dataAfter [some 2, Option.none, some 4] true = [some 2, some 4, some 4] ∧
    Cummin.dataAfter [some 2, Option.none, some 4] true ≠ [some 2, Option.none, some 4] ∧
    EOMultiply.dataAfter [some 2, Option.none] true (some []) = [some 2, some 1] ∧
    EOMultiply.dataAfter [some 2, Option.none] true (some []) ≠ [some 2, Option.none] := by
  have h1 : Cummin.dataAfter [some 2, Option.none, some 4] true = [some 2, some 4, some 4] := by
    norm_num [Cummin.dataAfter, is_empty, fillHole, nanMax, valids, List.filterMap_cons, id_eq]
  have h2 : EOMultiply.dataAfter [some 2, Option.none] true (some []) = [some 2, some 1] := by
    norm_num [EOMultiply.dataAfter, eo_count, fillHole]
  refine ⟨h1, ?_, h2, ?_⟩
  · rw [h1]; simp
  · rw [h2]; simp

----------------------------------------------------------------------------
-- Helper lemmas: binary_iterator
----------------------------------------------------------------------------

theorem getD_append_left : ∀ (l₁ l₂ : List EOVal) (i : Nat), i < l₁.length →
    (l₁ ++ l₂).getD i Option.none = l₁.getD i Option.none := by
  intro l₁
  induction l₁ with
  | nil => intro l₂ i h; simp at h
  | cons x xs ih =>
    intro l₂ i h
    cases i with
    | zero => rfl
    | succ j =>
      rw [List.cons_append, List.getD_cons_succ, List.getD_cons_succ]
      exact ih l₂ j (by simpa using h)

theorem getD_append_right : ∀ (l₁ l₂ : List EOVal) (i : Nat), l₁.length ≤ i →
    (l₁ ++ l₂).getD i Option.none = l₂.getD (i - l₁.length) Option.none := by
  intro l₁
  induction l₁ with
  | nil => intro l₂ i _; rfl
  | cons x xs ih =>
    intro l₂ i h
    cases i with
    | zero => simp at h
    | succ j =>
      rw [List.cons_append, List.getD_cons_succ]
      rw [ih l₂ j (by simpa using h)]
      congr 1
      simp only [List.length_cons]
      omega

theorem indexOf_range' : ∀ (n s i : Nat), s ≤ i → i < s + n →
    (List.range' s n).indexOf i = i - s := by
  intro n
  induction n with
  | zero => intro s i h1 h2; omega
  | succ k ih =>
    intro s i h1 h2
    rw [List.range'_succ, List.indexOf_cons]
    by_cases hsi : s = i
    · subst hsi
      simp
    · have hbeq : (s == i) = false := by
        simp [Nat.beq_eq_true_eq]
        omega
      rw [hbeq]
      show (List.range' (s + 1) k).indexOf i + 1 = i - s
      rw [ih (s + 1) i (by omega) (by omega)]
      omega

theorem index_arr_default (arr vals : List EOVal) (i : Nat)
    (hi : i < arr.length + vals.length) :
    index_arr_and_values i arr (min i arr.length) (some vals)
        (some (List.range' arr.length vals.length))
      = ((arr ++ vals).getD i Option.none, min (i + 1) arr.length) := by
  dsimp only [index_arr_and_values]
  by_cases hmem : i ∈ List.range' arr.length vals.length
  · rw [if_pos hmem]
    have hbounds := List.mem_range'_1.mp hmem
    rw [indexOf_range' vals.length arr.length i hbounds.1 hbounds.2]
    rw [getD_append_right arr vals i hbounds.1]
    have h1 : min i arr.length = arr.length := Nat.min_eq_right hbounds.1
    have h2 : min (i + 1) arr.length = arr.length := Nat.min_eq_right (by omega)
    rw [h1, h2]
  · rw [if_neg hmem]
    have hlt : i < arr.length := by
      rcases Nat.lt_or_ge i arr.length with hc | hc
      · exact hc
      · exact absurd (List.mem_range'_1.mpr ⟨hc, by omega⟩) hmem
    have h1 : min i arr.length = i := Nat.min_eq_left (le_of_lt hlt)
    have h2 : min (i + 1) arr.length = i + 1 := Nat.min_eq_left (by omega)
    rw [h1, h2, getD_append_left arr vals i hlt]

theorem binIter_loop_default (arr vals : List EOVal) (f : EOVal → EOVal → EOVal)
    (nd : Option ℚ) :
    ∀ (m s : Nat) (acc : EOVal), s + m ≤ arr.length + vals.length →
      ((List.range' s m).foldl
          (binIterStep arr f (some vals) (some (List.range' arr.length vals.length)) nd)
          (acc, min s arr.length)).1
        = (((arr ++ vals).drop s).take m).foldl (fun a b => f a (sanOpt nd b)) acc := by
  intro m
  induction m with
  | zero => intro s acc _; simp
  | succ k ih =>
    intro s acc hs
    rw [List.range'_succ, List.foldl_cons]
    have hfetch := index_arr_default arr vals s (by omega)
    have hstep : binIterStep arr f (some vals) (some (List.range' arr.length vals.length)) nd
        (acc, min s arr.length) s
        = (f acc (sanOpt nd ((arr ++ vals).getD s Option.none)), min (s + 1) arr.length) := by
      simp only [binIterStep]
      rw [hfetch]
    rw [hstep]
    rw [ih (s + 1) _ (by omega)]
    have hslen : s < (arr ++ vals).length := by rw [List.length_append]; omega
    have hgd : (arr ++ vals).getD s Option.none = (arr ++ vals)[s] := by
      rw [List.getD_eq_getElem?_getD, List.getElem?_eq_getElem hslen]
      rfl
    rw [List.drop_eq_getElem_cons hslen, List.take_succ_cons, List.foldl_cons, hgd]

theorem getD_zero_headD (l : List EOVal) : l.getD 0 Option.none = l.headD Option.none := by
  cases l <;> rfl

theorem binary_iterator_append (arr : List EOVal) (f : EOVal → EOVal → EOVal)
    (vals : List EOVal) (nd : Option ℚ) (h : arr ++ vals ≠ []) :
    binary_iterator arr f (some vals) Option.none nd
      = Except.ok (((arr ++ vals).drop 1).foldl (fun a b => f a (sanOpt nd b))
          (sanOpt nd ((arr ++ vals).headD Option.none))) := by
  have hn : 0 < arr.length + vals.length := by
    have hp := List.length_pos.mpr h
    rw [List.length_append] at hp
    omega
  show Except.ok (binIterRun arr f (some vals) (some (List.range' arr.length vals.length))
      nd (arr.length + vals.length)) = _
  simp only [binIterRun]
  have h0 := index_arr_default arr vals 0 (by omega)
  rw [Nat.zero_min] at h0
  rw [h0]
  dsimp only
  rw [binIter_loop_default arr vals f nd (arr.length + vals.length - 1) 1
    (sanOpt nd ((arr ++ vals).getD 0 Option.none)) (by omega)]
  have hdl : ((arr ++ vals).drop 1).length = arr.length + vals.length - 1 := by
    rw [List.length_drop, List.length_append]
  rw [← hdl, List.take_length]
  rw [getD_zero_headD]

theorem binary_iterator_ne_error (arr : List EOVal) (f : EOVal → EOVal → EOVal)
    (ev : Option (List EOVal)) (ei : Option (List Nat)) (nd : Option ℚ) (e : EOError)
    (he : e ≠ EOError.onlyExtraIdxsGiven) :
    binary_iterator arr f ev ei nd ≠ Except.error e := by
  unfold binary_iterator
  match ei, ev with
  | Option.none, some vals => intro hc; cases hc
  | some idxs, some vals => intro hc; cases hc
  | Option.none, Option.none => intro hc; cases hc
  | some _, Option.none =>
    intro hc
    injection hc with h'
    exact he h'.symm

----------------------------------------------------------------------------
-- Claim C2
----------------------------------------------------------------------------

/-- C2: each of the four arithmetic folds raises its own distinct
missing-operand error exactly when the native element count along the axis
plus the number of extra operands is below two, before computing anything;
with a combined count of at least two no such error is raised. -/
theorem insufficient_operands_errors (data : List EOVal) (ig : Bool)
    (extra_values : Option (List EOVal)) (extra_idxs : Option (List Nat)) :
    (EOSum.exec_np data ig extra_values = Except.error EOError.summandMissing
       ↔ eo_count data + (extra_values.getD []).length < 2) ∧
    (EOSubtract.exec_np data ig extra_values extra_idxs
        = Except.error EOError.subtrahendMissing
       ↔ eo_count data + (extra_values.getD []).length < 2) ∧
    (EOMultiply.exec_np data ig extra_values = Except.error EOError.multiplicandMissing
       ↔ eo_count data + (extra_values.getD []).length < 2) ∧
    (EODivide.exec_np data ig extra_values extra_idxs = Except.error EOError.divisorMissing
       ↔ eo_count data + (extra_values.getD []).length < 2) := by
  have hsub : EOSubtract.exec_np data ig extra_values extra_idxs
      = (if eo_count data + (extra_values.getD []).length < 2 then
          Except.error EOError.subtrahendMissing
        else binary_iterator data subV extra_values extra_idxs
          (if ig then some 0 else Option.none)) := by
    cases extra_values <;> rfl
  have hdiv : EODivide.exec_np data ig extra_values extra_idxs
      = (if eo_count data + (extra_values.getD []).length < 2 then
          Except.error EOError.divisorMissing
        else binary_iterator data divV extra_values extra_idxs
          (if ig then some 1 else Option.none)) := by
    cases extra_values <;> rfl
  by_cases hn : eo_count data + (extra_values.getD []).length < 2
  · refine ⟨?_, ?_, ?_, ?_⟩
    · simp only [EOSum.exec_np]; rw [if_pos hn]; simp [hn]
    · rw [hsub, if_pos hn]; simp [hn]
    · simp only [EOMultiply.exec_np]; rw [if_pos hn]; simp [hn]
    · rw [hdiv, if_pos hn]; simp [hn]
  · refine ⟨?_, ?_, ?_, ?_⟩
    · simp only [EOSum.exec_np]
      rw [if_neg hn]
      constructor
      · intro hc
        split at hc <;> cases hc
      · intro hc; exact absurd hc hn
    · rw [hsub, if_neg hn]
      constructor
      · intro hc
        exact absurd hc (binary_iterator_ne_error data subV extra_values extra_idxs _
          EOError.subtrahendMissing (by intro hh; cases hh))
      · intro hc; exact absurd hc hn
    · simp only [EOMultiply.exec_np]
      rw [if_neg hn]
      constructor
      · intro hc; cases hc
      · intro hc; exact absurd hc hn
    · rw [hdiv, if_neg hn]
      constructor
      · intro hc
        exact absurd hc (binary_iterator_ne_error data divV extra_values extra_idxs _
          EOError.divisorMissing (by intro hh; cases hh))
      · intro hc; exact absurd hc hn

----------------------------------------------------------------------------
-- Claim C6
----------------------------------------------------------------------------

theorem sequential_folds_eval (data ex : List EOVal) (ig : Bool)
    (h : 2 ≤ data.length + ex.length) :
    EOSubtract.exec_np data ig (some ex) Option.none
      = Except.ok (((data ++ ex).drop 1).foldl
          (fun a b => subV a (sanOpt (if ig then some 0 else Option.none) b))
          (sanOpt (if ig then some 0 else Option.none) ((data ++ ex).headD Option.none))) ∧
    EODivide.exec_np data ig (some ex) Option.none
      = Except.ok (((data ++ ex).drop 1).foldl
          (fun a b => divV a (sanOpt (if ig then some 1 else Option.none) b))
          (sanOpt (if ig then some 1 else Option.none) ((data ++ ex).headD Option.none))) := by
  have hne : data ++ ex ≠ [] := by
    apply List.length_pos.mp
    rw [List.length_append]
    omega
  have hno : ¬(eo_count data + ex.length < 2) := by
    unfold eo_count
    omega
  constructor
  · have hs : EOSubtract.exec_np data ig (some ex) Option.none
        = if eo_count data + ex.length < 2 then Except.error EOError.subtrahendMissing
          else binary_iterator data subV (some ex) Option.none
            (if ig then some 0 else Option.none) := rfl
    rw [hs, if_neg hno]
    exact binary_iterator_append data subV ex _ hne
  · have hd : EODivide.exec_np data ig (some ex) Option.none
        = if eo_count data + ex.length < 2 then Except.error EOError.divisorMissing
          else binary_iterator data divV (some ex) Option.none
            (if ig then some 1 else Option.none) := rfl
    rw [hd, if_neg hno]
    exact binary_iterator_append data divV ex _ hne

/-- C6: the order-sensitive folds (subtract, divide) evaluate left to right
over the merged sequence: the accumulator is seeded with the first
(sanitized) element and each subsequent element is combined via
accumulator − next (resp. accumulator / next); extra operands without
explicit positions are appended after the array's native elements. -/
theorem sequential_folds_left_to_right (data ex : List EOVal) (ig : Bool)
    (h : 2 ≤ data.length + ex.length) :
    EOSubtract.exec_np data ig (some ex) Option.none
      = Except.ok (((data ++ ex).drop 1).foldl
          (fun a b => subV a (sanOpt (if ig then some 0 else Option.none) b))
          (sanOpt (if ig then some 0 else Option.none) ((data ++ ex).headD Option.none))) ∧
    EODivide.exec_np data ig (some ex) Option.none
      = Except.ok (((data ++ ex).drop 1).foldl
          (fun a b => divV a (sanOpt (if ig then some 1 else Option.none) b))
          (sanOpt (if ig then some 1 else Option.none) ((data ++ ex).headD Option.none))) :=
  sequential_folds_eval data ex ig h

/-- Witness for C6: subtract([10, 3], extra_values=[1]) = 10 − 3 − 1 = 6. -/
theorem sequential_folds_left_to_right_witness :
    EOSubtract.exec_np [some 10, some 3] true (some [some 1]) Option.none
      = Except.ok (some 6) := by
  have h := (sequential_folds_left_to_right [some 10, some 3] [some 1] true (by norm_num)).1
  rw [h]
  norm_num [sanOpt, replace_nodata_arr_or_value, subV, liftOp]

theorem foldl_sanNone_mem_none (f : ℚ → ℚ → ℚ) (m : EOVal) (ms : List EOVal)
    (hmem : Option.none ∈ m :: ms) :
    ms.foldl (fun a b => liftOp f a (sanOpt Option.none b)) (sanOpt Option.none m)
      = Option.none := by
  show ms.foldl (liftOp f) m = Option.none
  rcases List.mem_cons.mp hmem with h1 | h2
  · rw [← h1]
    exact foldl_liftOp_none f ms
  · exact foldl_liftOp_of_mem_none f ms m h2

----------------------------------------------------------------------------
-- Claim C5
----------------------------------------------------------------------------

/-- C5: in ignore mode each Missing operand of the sequential folds is
replaced by the operation's identity element before being combined (0 for
the subtraction fold, 1 for the division fold), so the ignore-mode result
coincides with the strict-mode result on the input whose Missing entries
were substituted by that identity; in strict mode operands are left
untouched, so the sentinel propagates into the result whenever a Missing
value participates. -/
theorem ignore_mode_identity_substitution (data ex : List EOVal)
    (h : 2 ≤ data.length + ex.length) :
    (EOSubtract.exec_np data true (some ex) Option.none
       = EOSubtract.exec_np (data.map (fun v => replace_nodata_arr_or_value v 0)) false
           (some (ex.map (fun v => replace_nodata_arr_or_value v 0))) Option.none) ∧
    (EODivide.exec_np data true (some ex) Option.none
       = EODivide.exec_np (data.map (fun v => replace_nodata_arr_or_value v 1)) false
           (some (ex.map (fun v => replace_nodata_arr_or_value v 1))) Option.none) ∧
    (Option.none ∈ data ++ ex →
       EOSubtract.exec_np data false (some ex) Option.none = Except.ok Option.none ∧
       EODivide.exec_np data false (some ex) Option.none = Except.ok Option.none) := by
  have hne : data ++ ex ≠ [] := by
    apply List.length_pos.mp
    rw [List.length_append]
    omega
  refine ⟨?_, ?_, ?_⟩
  · have h1 := (sequential_folds_eval data ex true h).1
    have h2 := (sequential_folds_eval
      (data.map (fun v => replace_nodata_arr_or_value v 0))
      (ex.map (fun v => replace_nodata_arr_or_value v 0)) false
      (by rw [List.length_map, List.length_map]; exact h)).1
    rw [h1, h2, ← List.map_append]
    cases hm : data ++ ex with
    | nil => exact absurd hm hne
    | cons m ms =>
      simp only [List.map_cons, List.headD_cons, List.drop_succ_cons, List.drop_zero]
      rw [List.foldl_map]
      rfl
  · have h1 := (sequential_folds_eval data ex true h).2
    have h2 := (sequential_folds_eval
      (data.map (fun v => replace_nodata_arr_or_value v 1))
      (ex.map (fun v => replace_nodata_arr_or_value v 1)) false
      (by rw [List.length_map, List.length_map]; exact h)).2
    rw [h1, h2, ← List.map_append]
    cases hm : data ++ ex with
    | nil => exact absurd hm hne
    | cons m ms =>
      simp only [List.map_cons, List.headD_cons, List.drop_succ_cons, List.drop_zero]
      rw [List.foldl_map]
      rfl
  · intro hmem
    constructor
    · rw [(sequential_folds_eval data ex false h).1]
      cases hm : data ++ ex with
      | nil => exact absurd hm hne
      | cons m ms =>
        rw [hm] at hmem
        simp only [List.headD_cons, List.drop_succ_cons, List.drop_zero]
        exact congrArg Except.ok (foldl_sanNone_mem_none (· - ·) m ms hmem)
    · rw [(sequential_folds_eval data ex false h).2]
      cases hm : data ++ ex with
      | nil => exact absurd hm hne
      | cons m ms =>
        rw [hm] at hmem
        simp only [List.headD_cons, List.drop_succ_cons, List.drop_zero]
        exact congrArg Except.ok (foldl_sanNone_mem_none (· / ·) m ms hmem)

/-- Witness for C5 at data [2, Missing] with no extras. -/
theorem ignore_mode_identity_substitution_witness :
    (EOSubtract.exec_np [some 2, Option.none] true (some []) Option.none
       = EOSubtract.exec_np [some 2, some 0] false (some []) Option.none) ∧
    EOSubtract.exec_np [some 2, Option.none] false (some []) Option.none
      = Except.ok Option.none := by
  have h := ignore_mode_identity_substitution [some 2, Option.none] [] (by norm_num)
  constructor
  · simpa [replace_nodata_arr_or_value] using h.1
  · exact (h.2.2 (by simp)).1

----------------------------------------------------------------------------
-- Claim C10
----------------------------------------------------------------------------

theorem multiply_ignore_eval (data ex : List EOVal)
    (h : 2 ≤ eo_count data + ex.length) :
    (Option.none ∈ ex → EOMultiply.exec_np data true (some ex) = Except.ok Option.none) ∧
    (Option.none ∉ ex →
      EOMultiply.exec_np data true (some ex)
        = Except.ok (some ((valids ex).prod * (valids data).prod))) := by
  have hno : ¬(eo_count data + ex.length < 2) := by omega
  have hm : EOMultiply.exec_np data true (some ex)
      = if eo_count data + ex.length < 2 then Except.error EOError.multiplicandMissing
        else Except.ok ((data.map (fillHole (some 1))).foldl mulV
          (if 0 < ex.length then ex.foldl mulV (some 1) else some 1)) := rfl
  constructor
  · intro hmem
    rw [hm, if_neg hno]
    have hlen : 0 < ex.length := List.length_pos.mpr (List.ne_nil_of_mem hmem)
    rw [if_pos hlen]
    have htot : ex.foldl mulV (some 1) = Option.none := by
      show ex.foldl (liftOp (· * ·)) (some 1) = Option.none
      exact foldl_liftOp_of_mem_none _ ex (some 1) hmem
    rw [htot]
    congr 1
    show (data.map (fillHole (some 1))).foldl (liftOp (· * ·)) Option.none = Option.none
    exact foldl_liftOp_none _ _
  · intro hmem
    rw [hm, if_neg hno]
    have htot : (if 0 < ex.length then ex.foldl mulV (some 1) else some 1)
        = some ((valids ex).prod) := by
      by_cases hlen : 0 < ex.length
      · rw [if_pos hlen]
        have hrepr := eq_map_some_of_none_not_mem ex hmem
        conv_lhs => rw [hrepr]
        show ((valids ex).map some).foldl (liftOp (· * ·)) (some 1) = _
        rw [foldl_liftOp_map_some, foldl_mul_init, one_mul]
      · rw [if_neg hlen]
        have hex : ex = [] := List.length_eq_zero.mp (by omega)
        subst hex
        simp [valids]
    rw [htot]
    congr 1
    rw [map_fillHole_some]
    show ((data.map (fun v => v.getD 1)).map some).foldl (liftOp (· * ·))
        (some ((valids ex).prod)) = _
    rw [foldl_liftOp_map_some, foldl_mul_getD1]

/-- C10: for multiply with ignore_nodata=true, Missing entries of the native
array are neutralized to 1 before the product, but Missing values among the
extra operands are combined with a strict product, so the result is Missing
whenever any extra operand is Missing — even in ignore mode; with no Missing
extras the result is the product of the extras times the product of the
non-Missing native entries. -/
theorem multiply_extras_strict (data ex : List EOVal)
    (h : 2 ≤ eo_count data + ex.length) :
    (Option.none ∈ ex → EOMultiply.exec_np data true (some ex) = Except.ok Option.none) ∧
    (Option.none ∉ ex →
      EOMultiply.exec_np data true (some ex)
        = Except.ok (some ((valids ex).prod * (valids data).prod))) :=
  multiply_ignore_eval data ex h

/-- Witness for C10: multiply([2, 3], extra_values=[Missing]) in ignore mode
is Missing. -/
theorem multiply_extras_strict_witness :
    EOMultiply.exec_np [some 2, some 3] true (some [Option.none]) = Except.ok Option.none :=
  (multiply_extras_strict [some 2, some 3] [Option.none]
    (by simp [eo_count])).1 (by simp)

----------------------------------------------------------------------------
-- Helper lemmas: commutative-monoid structure of addV and mulV
----------------------------------------------------------------------------

theorem addV_zero_right (a : EOVal) : addV a (some 0) = a := by
  cases a <;> simp [addV, liftOp]

theorem addV_zero_left (a : EOVal) : addV (some 0) a = a := by
  cases a <;> simp [addV, liftOp]

theorem addV_assoc (a b c : EOVal) : addV (addV a b) c = addV a (addV b c) := by
  cases a <;> cases b <;> cases c <;> simp [addV, liftOp] <;> ring

instance : RightCommutative addV :=
  ⟨by
    intro b a₁ a₂
    cases b <;> cases a₁ <;> cases a₂ <;> simp [addV, liftOp] <;> ring⟩

theorem mulV_one_right (a : EOVal) : mulV a (some 1) = a := by
  cases a <;> simp [mulV, liftOp]

theorem mulV_one_left (a : EOVal) : mulV (some 1) a = a := by
  cases a <;> simp [mulV, liftOp]

theorem mulV_assoc (a b c : EOVal) : mulV (mulV a b) c = mulV a (mulV b c) := by
  cases a <;> cases b <;> cases c <;> simp [mulV, liftOp] <;> ring

instance : RightCommutative mulV :=
  ⟨by
    intro b a₁ a₂
    cases b <;> cases a₁ <;> cases a₂ <;> simp [mulV, liftOp] <;> ring⟩

theorem foldl_addV_shift : ∀ (l : List EOVal) (a : EOVal), l.foldl addV a = addV a (strictSum l) := by
  intro l
  induction l with
  | nil => intro a; exact (addV_zero_right a).symm
  | cons y ys ih =>
    intro a
    rw [List.foldl_cons, ih (addV a y)]
    have hs : strictSum (y :: ys) = addV y (strictSum ys) := by
      show (y :: ys).foldl addV (some 0) = _
      rw [List.foldl_cons, ih (addV (some 0) y), addV_zero_left]
    rw [hs, addV_assoc]

theorem foldl_mulV_shift : ∀ (l : List EOVal) (a : EOVal), l.foldl mulV a = mulV a (strictProd l) := by
  intro l
  induction l with
  | nil => intro a; exact (mulV_one_right a).symm
  | cons y ys ih =>
    intro a
    rw [List.foldl_cons, ih (mulV a y)]
    have hs : strictProd (y :: ys) = mulV y (strictProd ys) := by
      show (y :: ys).foldl mulV (some 1) = _
      rw [List.foldl_cons, ih (mulV (some 1) y), mulV_one_left]
    rw [hs, mulV_assoc]

theorem strictSum_append (d e : List EOVal) :
    strictSum (d ++ e) = addV (strictSum d) (strictSum e) := by
  show (d ++ e).foldl addV (some 0) = _
  rw [List.foldl_append]
  exact foldl_addV_shift e (strictSum d)

theorem strictSum_perm (l₁ l₂ : List EOVal) (p : l₁.Perm l₂) : strictSum l₁ = strictSum l₂ := by
  show l₁.foldl addV (some 0) = l₂.foldl addV (some 0)
  exact p.foldl_eq (some 0)

theorem strictProd_perm (l₁ l₂ : List EOVal) (p : l₁.Perm l₂) : strictProd l₁ = strictProd l₂ := by
  show l₁.foldl mulV (some 1) = l₂.foldl mulV (some 1)
  exact p.foldl_eq (some 1)

theorem valids_append (d e : List EOVal) : valids (d ++ e) = valids d ++ valids e := by
  unfold valids
  exact List.filterMap_append d e id

theorem mul_tot_collapse (l : List EOVal) :
    (if 0 < l.length then l.foldl mulV (some 1) else some 1) = strictProd l := by
  cases l with
  | nil => rfl
  | cons x xs =>
    rw [if_pos (by simp)]
    rfl

theorem foldl_strictProd (e d : List EOVal) :
    d.foldl mulV (strictProd e) = strictProd (e ++ d) := by
  show _ = (e ++ d).foldl mulV (some 1)
  rw [List.foldl_append]
  rfl

----------------------------------------------------------------------------
-- Claim C4
----------------------------------------------------------------------------

/-- C4 counterexample: the combined collections ([Missing, 2] native, no
extras) and ([2] native, [Missing] extras) are permutations of each other,
yet in ignore mode multiply returns 2 for the first (the native Missing is
neutralized to 1) and Missing for the second (extras go through a strict
np.prod), so moving a Missing value between the native array and the extras
changes the result. -/
theorem commutative_invariance_counterexample :
    ([Option.none, some 2] ++ ([] : List EOVal)).Perm ([some 2] ++ [Option.none]) ∧
    EOMultiply.exec_np [Option.none, some 2] true (some ([] : List EOVal))
      ≠ EOMultiply.exec_np [some 2] true (some [Option.none]) := by
  constructor
  · simpa using List.Perm.swap (some 2) Option.none []
  · have h1 := (multiply_ignore_eval [Option.none, some 2] [] (by simp [eo_count])).2 (by simp)
    have h2 := (multiply_ignore_eval [some 2] [Option.none] (by simp [eo_count])).1 (by simp)
    rw [h1, h2]
    simp

/-- C4 (amended): for every input array, extra-operand list and fixed
no-data mode, sum is invariant under any permutation of the combined
collection of native elements and extras (including moving values between
the two); multiply is invariant in strict mode; in ignore mode multiply is
invariant provided Missing entries do not move between the native array and
the extras (here: the extras of the two calls either both or neither
contain a Missing value) — the counterexample above shows the unrestricted
claim fails for multiply in ignore mode. -/
theorem commutative_reducers_permutation_invariance (d₁ e₁ d₂ e₂ : List EOVal) (ig : Bool)
    (hperm : (d₁ ++ e₁).Perm (d₂ ++ e₂)) :
    EOSum.exec_np d₁ ig (some e₁) = EOSum.exec_np d₂ ig (some e₂) ∧
    EOMultiply.exec_np d₁ false (some e₁) = EOMultiply.exec_np d₂ false (some e₂) ∧
    ((Option.none ∈ e₁ ↔ Option.none ∈ e₂) →
      EOMultiply.exec_np d₁ true (some e₁) = EOMultiply.exec_np d₂ true (some e₂)) := by
  have hlen : d₁.length + e₁.length = d₂.length + e₂.length := by
    have h := hperm.length_eq
    simpa [List.length_append] using h
  have hvperm : (valids (d₁ ++ e₁)).Perm (valids (d₂ ++ e₂)) := hperm.filterMap id
  refine ⟨?_, ?_, ?_⟩
  · have hm1 : EOSum.exec_np d₁ ig (some e₁)
        = if eo_count d₁ + e₁.length < 2 then Except.error EOError.summandMissing
          else if !ig then Except.ok (addV (strictSum d₁) (strictSum e₁))
          else Except.ok (addV (nanSum d₁) (nanSum e₁)) := rfl
    have hm2 : EOSum.exec_np d₂ ig (some e₂)
        = if eo_count d₂ + e₂.length < 2 then Except.error EOError.summandMissing
          else if !ig then Except.ok (addV (strictSum d₂) (strictSum e₂))
          else Except.ok (addV (nanSum d₂) (nanSum e₂)) := rfl
    rw [hm1, hm2]
    by_cases hn : eo_count d₁ + e₁.length < 2
    · have hn2 : eo_count d₂ + e₂.length < 2 := by unfold eo_count at *; omega
      rw [if_pos hn, if_pos hn2]
    · have hn2 : ¬(eo_count d₂ + e₂.length < 2) := by unfold eo_count at *; omega
      rw [if_neg hn, if_neg hn2]
      cases ig with
      | false =>
        show Except.ok (addV (strictSum d₁) (strictSum e₁))
          = Except.ok (addV (strictSum d₂) (strictSum e₂))
        rw [← strictSum_append d₁ e₁, ← strictSum_append d₂ e₂]
        exact congrArg Except.ok (strictSum_perm _ _ hperm)
      | true =>
        show Except.ok (addV (nanSum d₁) (nanSum e₁))
          = Except.ok (addV (nanSum d₂) (nanSum e₂))
        have hsum : (valids d₁).sum + (valids e₁).sum = (valids d₂).sum + (valids e₂).sum := by
          have h1 : (valids d₁).sum + (valids e₁).sum = (valids (d₁ ++ e₁)).sum := by
            rw [valids_append, List.sum_append]
          have h2 : (valids d₂).sum + (valids e₂).sum = (valids (d₂ ++ e₂)).sum := by
            rw [valids_append, List.sum_append]
          rw [h1, h2]
          exact hvperm.sum_eq
        show Except.ok (some ((valids d₁).sum + (valids e₁).sum))
          = Except.ok (some ((valids d₂).sum + (valids e₂).sum))
        rw [hsum]
  · have hm1 : EOMultiply.exec_np d₁ false (some e₁)
        = if eo_count d₁ + e₁.length < 2 then Except.error EOError.multiplicandMissing
          else Except.ok (d₁.foldl mulV
            (if 0 < e₁.length then e₁.foldl mulV (some 1) else some 1)) := rfl
    have hm2 : EOMultiply.exec_np d₂ false (some e₂)
        = if eo_count d₂ + e₂.length < 2 then Except.error EOError.multiplicandMissing
          else Except.ok (d₂.foldl mulV
            (if 0 < e₂.length then e₂.foldl mulV (some 1) else some 1)) := rfl
    rw [hm1, hm2]
    by_cases hn : eo_count d₁ + e₁.length < 2
    · have hn2 : eo_count d₂ + e₂.length < 2 := by unfold eo_count at *; omega
      rw [if_pos hn, if_pos hn2]
    · have hn2 : ¬(eo_count d₂ + e₂.length < 2) := by unfold eo_count at *; omega
      rw [if_neg hn, if_neg hn2, mul_tot_collapse e₁, mul_tot_collapse e₂,
        foldl_strictProd e₁ d₁, foldl_strictProd e₂ d₂]
      refine congrArg Except.ok (strictProd_perm _ _ ?_)
      exact (List.perm_append_comm.trans hperm).trans List.perm_append_comm
  · intro hiff
    by_cases hn : eo_count d₁ + e₁.length < 2
    · have hn2 : eo_count d₂ + e₂.length < 2 := by unfold eo_count at *; omega
      have hm1 : EOMultiply.exec_np d₁ true (some e₁)
          = if eo_count d₁ + e₁.length < 2 then Except.error EOError.multiplicandMissing
            else Except.ok ((d₁.map (fillHole (some 1))).foldl mulV
              (if 0 < e₁.length then e₁.foldl mulV (some 1) else some 1)) := rfl
      have hm2 : EOMultiply.exec_np d₂ true (some e₂)
          = if eo_count d₂ + e₂.length < 2 then Except.error EOError.multiplicandMissing
            else Except.ok ((d₂.map (fillHole (some 1))).foldl mulV
              (if 0 < e₂.length then e₂.foldl mulV (some 1) else some 1)) := rfl
      rw [hm1, hm2, if_pos hn, if_pos hn2]
    · have hn2 : ¬(eo_count d₂ + e₂.length < 2) := by unfold eo_count at *; omega
      by_cases hmem : Option.none ∈ e₁
      · rw [(multiply_ignore_eval d₁ e₁ (by omega)).1 hmem,
          (multiply_ignore_eval d₂ e₂ (by omega)).1 (hiff.mp hmem)]
      · rw [(multiply_ignore_eval d₁ e₁ (by omega)).2 hmem,
          (multiply_ignore_eval d₂ e₂ (by omega)).2 (fun hm => hmem (hiff.mpr hm))]
        have hp : (valids d₁).prod * (valids e₁).prod = (valids d₂).prod * (valids e₂).prod := by
          have h1 : (valids d₁).prod * (valids e₁).prod = (valids (d₁ ++ e₁)).prod := by
            rw [valids_append, List.prod_append]
          have h2 : (valids d₂).prod * (valids e₂).prod = (valids (d₂ ++ e₂)).prod := by
            rw [valids_append, List.prod_append]
          rw [h1, h2]
          exact hvperm.prod_eq
        have hgoal : (valids e₁).prod * (valids d₁).prod
            = (valids e₂).prod * (valids d₂).prod := by
          rw [mul_comm, hp, mul_comm]
        rw [hgoal]

/-- Witness for C4: sum([1, 2]) equals sum([2], extra_values=[1]). -/
theorem commutative_reducers_permutation_invariance_witness :
    EOSum.exec_np [some 1, some 2] true (some []) = EOSum.exec_np [some 2] true (some [some 1]) := by
  have hperm : ([some 1, some 2] ++ ([] : List EOVal)).Perm ([some 2] ++ [some 1]) := by
    simpa using List.Perm.swap (some 2) (some 1) []
  exact (commutative_reducers_permutation_invariance [some 1, some 2] [] [some 2] [some 1]
    true hperm).1
